import Mathlib

/-!
Verification development for the PaperScout repository.

The definitions below are a shallow embedding of the paper-ingestion and
library-state core of the repository:

* `src/lib/arxiv.ts` — identifier normalisation (`normalizeArxivId`),
  query-URL construction (`buildArxivQueryUrl`) and Atom feed parsing
  (`parseArxivAtom` / `parseEntry`);
* `src/tools.ts` — the tool layer (`savePaper`, `listSavedPapers`,
  `removeSavedPaper`, `summarizePaper`, `summaryKey`).

Strings are modelled as Lean `String` / `List Char`; the two JavaScript
regexes of `normalizeArxivId` are embedded by hand with their exact
leftmost-first / lazy-quantifier semantics, including the fact that `.`
does not match a newline and that the URL regex carries the `/i` flag.
SQLite tables are modelled as lists of row structures; the JSON-encoded
columns (`tags_json`, `authors_json`) are modelled directly as lists.
-/

namespace PaperScout


/-- ASCII lower-casing. Models JS `String.prototype.toLowerCase` on the
ASCII range, and the case folding performed by a regex `/i` flag. -/

def lowerChar (c : Char) : Char :=
  if 65 ≤ c.toNat ∧ c.toNat ≤ 90 then Char.ofNat (c.toNat + 32) else c

/-- Case-insensitive character comparison (regex `/i` matching of a
pattern character `p` against a subject character `c`). -/

def lcEq (p c : Char) : Bool := lowerChar p == lowerChar c

/-- Case-insensitively strip the pattern `pat` from the front of `l`,
returning the remainder on success. -/

def ciStrip : List Char → List Char → Option (List Char)
  | [], l => some l
  | _ :: _, [] => none
  | p :: ps, c :: cs => if lcEq p c then ciStrip ps cs else none

/-- Match of the literal part `arxiv\.org\/(?:abs|pdf)\/` of the URL
regex of `normalizeArxivId` at the current position (case-insensitive). -/

def stripMarker (l : List Char) : Option (List Char) :=
  match ciStrip "arxiv.org/".data l with
  | none => none
  | some r =>
    match ciStrip "abs/".data r with
    | some r2 => some r2
    | none => ciStrip "pdf/".data r

/-- True when no character of `l` is a newline; regex `.` cannot match a
newline. -/

def noNL (l : List Char) : Bool := l.all (fun c => c != '\n')

/-- Case-insensitive ends-with test. -/

def ciEndsWith (l pat : List Char) : Bool := (ciStrip pat.reverse l.reverse).isSome

/-- Drop the last `n` characters. -/

def dropLastN (n : Nat) (l : List Char) : List Char := (l.reverse.drop n).reverse

/-- Non-empty and newline-free: what `(.+?)` can capture. -/

def validCapture (l : List Char) : Bool := !l.isEmpty && noNL l

/-- Semantics of `(.+?)(?:\.pdf)?$` (with `/i`) applied to the text after
the endpoint marker: the lazy group takes the shortest non-empty,
newline-free capture whose remainder is empty or `.pdf` (so a trailing
`.pdf` is stripped exactly when what precedes it is a usable capture). -/

def extractAfterMarker (rest : List Char) : Option (List Char) :=
  if ciEndsWith rest ".pdf".data && validCapture (dropLastN 4 rest) then
    some (dropLastN 4 rest)
  else if validCapture rest then some rest
  else none

/-- Leftmost match of `/arxiv\.org\/(?:abs|pdf)\/(.+?)(?:\.pdf)?$/i`,
returning the captured group: the engine slides the start position left
to right and at the first position where the whole pattern matches
returns the capture. -/

def findMarker : List Char → Option (List Char)
  | [] => none
  | c :: cs =>
    match stripMarker (c :: cs) with
    | some rest =>
      match extractAfterMarker rest with
      | some cap => some cap
      | none => findMarker cs
    | none => findMarker cs

/-- Regex digit class `\d`, that is ASCII `0`-`9`. -/

def isDigitChar (c : Char) : Bool := 48 ≤ c.toNat && c.toNat ≤ 57

/-- Does `l` match `v(\d+)$` (a literal `v` followed by one or more
digits running to the end)? -/

def isVSuffix : List Char → Bool
  | [] => false
  | c :: rest => c == 'v' && (!rest.isEmpty && rest.all isDigitChar)

/-- Value of `Number.parseInt` on an all-digit string. -/

def digitsToNat (l : List Char) : Nat :=
  l.foldl (fun acc c => 10 * acc + (c.toNat - 48)) 0

/-- Work loop for `/^(.+?)(?:v(\d+))?$/`: `accRev` is the reversed
capture so far (non-empty); the lazy group stops at the first point
where the remaining text is empty or a `v`-digits suffix. -/

def matchVersionAux (accRev : List Char) : List Char → Option (List Char × Option (List Char))
  | [] => some (accRev.reverse, none)
  | c :: cs =>
    if isVSuffix (c :: cs) then some (accRev.reverse, some cs)
    else if c == '\n' then none
    else matchVersionAux (c :: accRev) cs

/-- Match of `/^(.+?)(?:v(\d+))?$/` against `l`, returning the capture
and the optional version digits; `none` when the regex fails (empty
input or a newline before any viable split). -/

def matchVersion : List Char → Option (List Char × Option (List Char))
  | [] => none
  | c :: cs => if c == '\n' then none else matchVersionAux [c] cs

/-- Normalized arXiv ID with canonical (versionless) and versioned forms
(`NormalizedArxivId` of src/lib/arxiv.ts). -/

structure NormalizedArxivId where
  canonical : String
  version : Option Nat := none
  versioned : Option String := none
deriving Repr, DecidableEq

/-- The local `id` of `normalizeArxivId`: the URL capture when the URL
regex matched, the raw input otherwise. -/

def extractedId (idOrUrl : String) : String :=
  match findMarker idOrUrl.data with
  | some cap => String.mk cap
  | none => idOrUrl

/-- Embedding of `normalizeArxivId` of src/lib/arxiv.ts: extract the ID
from an arXiv abs/pdf URL when present, then split an optional trailing
`vK` version suffix. -/

def normalizeArxivId (idOrUrl : String) : NormalizedArxivId :=
  match matchVersion (extractedId idOrUrl).data with
  | none => { canonical := extractedId idOrUrl }
  | some (canon, none) => { canonical := String.mk canon }
  | some (canon, some ds) =>
    { canonical := String.mk canon
      version := some (digitsToNat ds)
      versioned := some (extractedId idOrUrl) }

/-! ### Valid raw identifiers

The grammar of valid raw identifiers from spec section 4.1: bare
new-style ids `YYMM.NNNNN[vK]`, bare old-style ids
`subject[-subject2]/YYMMNNN[vK]`, and full abstract- or PDF-page URLs
containing either form, with an optional trailing `.pdf`. -/

/-- ASCII letter. -/

def isAlphaChar (c : Char) : Bool :=
  (65 ≤ c.toNat && c.toNat ≤ 90) || (97 ≤ c.toNat && c.toNat ≤ 122)

/-- Character allowed in an old-style archive prefix: letters, hyphen
(`hep-th`), dot (subject classes such as `math.GT`). -/

def isSubjChar (c : Char) : Bool := isAlphaChar c || c == '-' || c == '.'

/-- Bare new-style core `YYMM.NNNNN`: four digits, a dot, then four or
five digits. -/

def isNewCore (l : List Char) : Bool :=
  match l.drop 4 with
  | c :: ds =>
    (l.take 4).length == 4 && (l.take 4).all isDigitChar && c == '.' &&
    (ds.length == 4 || ds.length == 5) && ds.all isDigitChar
  | [] => false

/-- Bare old-style core `subject/YYMMNNN`: a non-empty subject of
letters, hyphens and dots, a slash, then seven digits. -/

def isOldCore (l : List Char) : Bool :=
  match l.span (fun c => c != '/') with
  | (subj, d :: ds) =>
    !subj.isEmpty && subj.all isSubjChar && d == '/' &&
    ds.length == 7 && ds.all isDigitChar
  | (_, []) => false

/-- Versionless core of either style. -/

def isCore (l : List Char) : Bool := isNewCore l || isOldCore l

/-- Split an id of the form `core ++ v ++ digits` (one or more trailing
digits preceded by a literal `v`), returning the core. -/

def dropVDigits (l : List Char) : Option (List Char) :=
  if (l.reverse.takeWhile isDigitChar).isEmpty then none
  else
    match l.reverse.drop (l.reverse.takeWhile isDigitChar).length with
    | c :: rest => if c == 'v' then some rest.reverse else none
    | [] => none

/-- Bare identifier: a core with an optional `vK` version suffix. -/

def isBareId (l : List Char) : Bool :=
  isCore l ||
  (match dropVDigits l with
   | some core => isCore core
   | none => false)

/-- Strip an exact (case-sensitive) literal from the front. -/

def stripLit : List Char → List Char → Option (List Char)
  | [], l => some l
  | _ :: _, [] => none
  | p :: ps, c :: cs => if p == c then stripLit ps cs else none

/-- Bare identifier with an optional trailing `.pdf`. -/

def isBareOptPdf (l : List Char) : Bool :=
  isBareId l ||
  (match stripLit ".pdf".data.reverse l.reverse with
   | some r => isBareId r.reverse
   | none => false)

/-- URL schemes under which an arXiv link is considered a valid raw
identifier input. -/

def urlSchemes : List (List Char) :=
  ["".data, "http://".data, "https://".data, "http://www.".data, "https://www.".data]

/-- Valid raw identifier per spec section 4.1: a bare id, or an
abstract- or PDF-page URL wrapping a bare id with optional `.pdf`. -/

def isValidRaw (s : String) : Bool :=
  isBareId s.data ||
  urlSchemes.any (fun p =>
    (match stripLit (p ++ "arxiv.org/abs/".data) s.data with
     | some rest => isBareOptPdf rest
     | none => false) ||
    (match stripLit (p ++ "arxiv.org/pdf/".data) s.data with
     | some rest => isBareOptPdf rest
     | none => false))

/-- Does the string end with a well-formed version suffix `vK` (a
literal `v` and one or more digits) preceded by a non-empty stem? -/

def hasTrailingVSuffix (s : String) : Bool :=
  match dropVDigits s.data with
  | some core => !core.isEmpty
  | none => false

/-! ### Feed parser (`parseArxivAtom` / `parseEntry` of src/lib/arxiv.ts)

The XML parsing library call (`XMLParser.parse`) is modelled abstractly:
its outcome is `none` when the parser throws on malformed XML, and
otherwise a document whose `feed` field may be absent.  Elements are
pre-shaped by the `isArray` option of the source, so `entry`, `author`,
`link` and `category` are (optional) lists.  A field that may be absent
in the XML is an `Option`; the JS truthiness tests of the source
(`if (!idElement)` and friends) treat both an absent field and an empty
string as missing. -/

/-- An Atom `link` element with its attributes. -/

structure AtomLink where
  rel : Option String := none
  type : Option String := none
  href : Option String := none
deriving Repr, DecidableEq

/-- An Atom `author` element. -/

structure AtomAuthor where
  name : Option String := none
deriving Repr, DecidableEq

/-- An Atom `category` element. -/

structure AtomCategory where
  term : Option String := none
deriving Repr, DecidableEq

/-- An Atom `entry` element as produced by the XML parser. -/

structure AtomEntry where
  id : Option String := none
  title : Option String := none
  published : Option String := none
  updated : Option String := none
  summary : Option String := none
  author : Option (List AtomAuthor) := none
  link : Option (List AtomLink) := none
  category : Option (List AtomCategory) := none
deriving Repr, DecidableEq

/-- The root `feed` object. -/

structure AtomFeed where
  entry : Option (List AtomEntry) := none
deriving Repr, DecidableEq

/-- Parsed paper data (`ArxivPaper` of src/lib/arxiv.ts). -/

structure ArxivPaper where
  arxivId : String
  arxivIdVersioned : Option String := none
  version : Option Nat := none
  title : String
  authors : List String := []
  published : String
  updated : Option String := none
  abstract : String := ""
  url : String
  categories : Option (List String) := none
  pdfUrl : Option String := none
deriving Repr, DecidableEq

/-- Whitespace class of the regex `\s` (ASCII fragment). -/

def isWsChar (c : Char) : Bool :=
  c == ' ' || c == '\n' || c == '\t' || c == '\r' ||
  c == Char.ofNat 12 || c == Char.ofNat 11

/-- Work loop of `.replace(/\s+/g, " ")`: collapse each maximal run of
whitespace to a single space (`prevWs` remembers whether the previous
character was part of a run). -/

def squashWsAux (prevWs : Bool) : List Char → List Char
  | [] => []
  | c :: cs =>
    if isWsChar c then
      if prevWs then squashWsAux true cs else ' ' :: squashWsAux true cs
    else c :: squashWsAux false cs

/-- JS `.trim()`: strip whitespace from both ends. -/

def jsTrim (l : List Char) : List Char :=
  ((l.dropWhile isWsChar).reverse.dropWhile isWsChar).reverse

/-- `.replace(/\s+/g, " ").trim()` as applied to titles and abstracts. -/

def cleanWs (s : String) : String := String.mk (jsTrim (squashWsAux false s.data))

/-- One step of the link loop of `parseEntry`: a later
`alternate`/`text/html` link with an `href` overwrites the page URL, and
a later `application/pdf` link overwrites the PDF URL with its `href`
(which may be absent). -/

def linkStep (st : String × Option String) (link : AtomLink) : String × Option String :=
  let url :=
    if link.rel == some "alternate" && link.type == some "text/html" then
      match link.href with
      | some h => h
      | none => st.1
    else st.1
  let pdfUrl := if link.type == some "application/pdf" then link.href else st.2
  (url, pdfUrl)

/-- The link loop of `parseEntry`, starting from the raw `id` URI. -/

def parseLinks (links : List AtomLink) (idElement : String) : String × Option String :=
  links.foldl linkStep (idElement, none)

/-- Embedding of `parseEntry` of src/lib/arxiv.ts: `none` when `id`,
`title` or `published` is missing (or empty, the JS falsy test). -/

def parseEntry (entry : AtomEntry) : Option ArxivPaper :=
  if entry.id.getD "" == "" then none
  else if entry.title.getD "" == "" then none
  else if entry.published.getD "" == "" then none
  else
    let idElement := entry.id.getD ""
    let normalizedId := normalizeArxivId idElement
    let authors := (entry.author.getD []).filterMap fun a =>
      match a.name with
      | some n => if n == "" then none else some n
      | none => none
    let links := parseLinks (entry.link.getD []) idElement
    let categories := (entry.category.getD []).filterMap fun cat =>
      match cat.term with
      | some t => if t == "" then none else some t
      | none => none
    some
      { arxivId := normalizedId.canonical
        arxivIdVersioned := normalizedId.versioned
        version := normalizedId.version
        title := cleanWs (entry.title.getD "")
        authors := authors
        published := entry.published.getD ""
        updated := entry.updated
        abstract := cleanWs (entry.summary.getD "")
        url := links.1
        pdfUrl := links.2
        categories := if categories.isEmpty then none else some categories }

/-- Embedding of `parseArxivAtom` of src/lib/arxiv.ts over the abstract
parse outcome: `none` = the XML parser threw; `some none` = no root
`feed` element; otherwise iterate the entries, skipping the malformed
ones (`parseEntry` returning `none`). -/

def parseArxivAtomFromDoc (doc : Option (Option AtomFeed)) : List ArxivPaper :=
  match doc with
  | none => []
  | some none => []
  | some (some feed) =>
    match feed.entry with
    | none => []
    | some entries => entries.filterMap parseEntry

/-- An entry with non-missing (truthy) `id`, `title` and `published`. -/

def wellFormedEntry (e : AtomEntry) : Bool :=
  !(e.id.getD "" == "") && !(e.title.getD "" == "") && !(e.published.getD "" == "")

/-! ### Link resolution (claim C9) -/

/-- The `href` of the LAST `alternate`-rel, HTML-typed link that carries
an `href`, if any.  (Spec-side description of what the link loop of
`parseEntry` computes for the page URL.) -/

def lastAltHtmlHref : List AtomLink → Option String
  | [] => none
  | x :: t =>
    match lastAltHtmlHref t with
    | some h => some h
    | none =>
      if x.rel == some "alternate" && x.type == some "text/html" && x.href.isSome then x.href
      else none

/-- The `href` (possibly absent) of the LAST `application/pdf`-typed
link, if any such link exists.  (Spec-side description of what the link
loop of `parseEntry` computes for the PDF URL.) -/

def lastPdfHref : List AtomLink → Option (Option String)
  | [] => none
  | x :: t =>
    match lastPdfHref t with
    | some h => some h
    | none => if x.type == some "application/pdf" then some x.href else none

/-- An entry carrying two `application/pdf`-typed links. -/

def entryTwoPdf : AtomEntry :=
  { id := some "http://arxiv.org/abs/2301.01234"
    title := some "T"
    published := some "2023-01-01"
    link := some
      [{ rel := some "related", type := some "application/pdf", href := some "http://a.pdf" },
       { rel := some "related", type := some "application/pdf", href := some "http://b.pdf" }] }

/-- Concrete entry for the C9 witness. -/

def linkEntryW : AtomEntry :=
  { id := some "http://arxiv.org/abs/2301.01234v2"
    title := some "T"
    published := some "2023-01-15"
    link := some
      [{ rel := some "alternate", type := some "text/html",
         href := some "http://arxiv.org/abs/2301.01234v2" },
       { rel := some "related", type := some "application/pdf",
         href := some "http://arxiv.org/pdf/2301.01234v2" }] }

/-- Concrete parse result for the C9 witness. -/

def linkPaperW : ArxivPaper :=
  { arxivId := "2301.01234"
    arxivIdVersioned := some "2301.01234v2"
    version := some 2
    title := "T"
    published := "2023-01-15"
    url := "http://arxiv.org/abs/2301.01234v2"
    pdfUrl := some "http://arxiv.org/pdf/2301.01234v2" }

/-! ### Library store and tool layer (src/tools.ts)

The `saved_papers` SQLite table is modelled as a list of rows in
insertion order (`INSERT` appends, matching rowid order of an unordered
`SELECT`); the JSON-encoded columns `tags_json` and `authors_json` are
modelled directly as lists.  Storage itself is assumed to succeed, so
the `catch` branches around the SQL calls of the source (database-error
results) are not reachable in the model.  The arXiv fetch performed by
`savePaper` / `summarizePaper` is passed in as an explicit outcome
(network error, HTTP error, not-found, or a paper), and the model
additionally reports whether control reached the fetch call. -/

/-- A row of the `saved_papers` table. -/

structure SavedRow where
  arxiv_id : String
  title : String
  authors : List String := []
  published : String := ""
  updated : String := ""
  abstract : String := ""
  url : String := ""
  tags : List String := []
  saved_at : Nat := 0
deriving Repr, DecidableEq

/-- Outcome of `fetchArxivPaperById` as seen by its callers: a thrown
network error, a thrown HTTP error with its status, or a normal return
of a paper or `null`. -/

inductive FetchOutcome where
  | network
  | http (status : Nat)
  | found (paper : ArxivPaper)
  | missing
deriving Repr, DecidableEq

/-- Error kinds that `savePaper` reports in its `error` field. -/

inductive SaveError where
  | network
  | http (status : Nat)
  | notFound
deriving Repr, DecidableEq

/-- Result of the `savePaper` tool (`SavePaperResult` of src/tools.ts),
with the message strings of the source abstracted into error kinds. -/

structure SavePaperResult where
  arxivId : String
  title : String
  tags : List String
  savedAt : Nat
  wasAlreadySaved : Bool
  error : Option SaveError := none
deriving Repr, DecidableEq

/-- JS `Array.from(new Set(l))`: deduplicate keeping first occurrences. -/

def jsSetDedup : List String → List String
  | [] => []
  | x :: xs => x :: (jsSetDedup xs).filter (fun y => y != x)

/-- The row inserted by the `INSERT INTO saved_papers` of `savePaper`. -/

def insertedRow (canonicalId : String) (paper : ArxivPaper) (tags : List String)
    (now : Nat) : SavedRow :=
  { arxiv_id := canonicalId
    title := paper.title
    authors := paper.authors
    published := paper.published
    updated := paper.updated.getD paper.published
    abstract := paper.abstract
    url := paper.url
    tags := tags
    saved_at := now }

/-- Embedding of the `savePaper` tool of src/tools.ts.  Returns the
result, the new table state, and whether the arXiv fetch was reached. -/

def savePaper (store : List SavedRow) (arxivId : String) (tags : List String)
    (fetch : FetchOutcome) (now : Nat) :
    SavePaperResult × List SavedRow × Bool :=
  let canonicalId := (normalizeArxivId arxivId).canonical
  match store.filter (fun r => r.arxiv_id == canonicalId) with
  | existing :: _ =>
    let existingTags := existing.tags
    let mergedTags := jsSetDedup (existingTags ++ tags)
    let store2 := store.map fun r =>
      if r.arxiv_id == canonicalId then { r with tags := mergedTags } else r
    ({ arxivId := canonicalId, title := existing.title, tags := mergedTags,
       savedAt := existing.saved_at, wasAlreadySaved := true }, store2, false)
  | [] =>
    match fetch with
    | .network =>
      ({ arxivId := canonicalId, title := "", tags := [], savedAt := 0,
         wasAlreadySaved := false, error := some .network }, store, true)
    | .http s =>
      ({ arxivId := canonicalId, title := "", tags := [], savedAt := 0,
         wasAlreadySaved := false, error := some (.http s) }, store, true)
    | .missing =>
      ({ arxivId := canonicalId, title := "", tags := [], savedAt := 0,
         wasAlreadySaved := false, error := some .notFound }, store, true)
    | .found paper =>
      ({ arxivId := canonicalId, title := paper.title, tags := tags, savedAt := now,
         wasAlreadySaved := false }, store ++ [insertedRow canonicalId paper tags now], true)

/-- Error kind of the `removeSavedPaper` execution. -/

inductive RemoveError where
  | notFound
deriving Repr, DecidableEq

/-- Result of the `removeSavedPaper` execution
(`RemoveSavedPaperResult` of src/tools.ts). -/

structure RemoveSavedPaperResult where
  arxivId : String
  title : Option String := none
  success : Bool
  error : Option RemoveError := none
deriving Repr, DecidableEq

/-- Embedding of `executions.removeSavedPaper` of src/tools.ts (the
phase-2 handler that runs only after the user approved the removal).
The JS guard `if (!title)` treats an absent row AND a stored empty-string
title alike: both take the not-found branch without deleting. -/

def removeSavedPaper (store : List SavedRow) (arxivId : String) :
    RemoveSavedPaperResult × List SavedRow :=
  let canonicalId := (normalizeArxivId arxivId).canonical
  let title : Option String :=
    match store.filter (fun r => r.arxiv_id == canonicalId) with
    | r :: _ => some r.title
    | [] => none
  match title with
  | none => ({ arxivId := canonicalId, success := false, error := some .notFound }, store)
  | some t =>
    if t == "" then
      ({ arxivId := canonicalId, success := false, error := some .notFound }, store)
    else
      ({ arxivId := canonicalId, title := some t, success := true },
       store.filter fun r => !(r.arxiv_id == canonicalId))

/-- JS `String.prototype.toLowerCase` (ASCII fragment). -/

def lowerStr (s : String) : String := String.mk (s.data.map lowerChar)

/-- Is `pat` a prefix of `hay`? -/

def hasPrefixL : List Char → List Char → Bool
  | [], _ => true
  | _ :: _, [] => false
  | p :: ps, c :: cs => p == c && hasPrefixL ps cs

/-- JS `hay.includes(pat)`: `pat` occurs somewhere inside `hay`. -/

def strIncludesL (pat : List Char) : List Char → Bool
  | [] => hasPrefixL pat []
  | c :: t => hasPrefixL pat (c :: t) || strIncludesL pat t

/-- JS `hay.includes(pat)` on strings. -/

def strIncludes (hay pat : String) : Bool := strIncludesL pat.data hay.data

/-- Result of the `listSavedPapers` tool, keeping rows whole
(`ListSavedPapersResult` of src/tools.ts up to the field renaming of the
row-to-JSON transform, which is 1-1). -/

structure ListResult where
  papers : List SavedRow
  totalCount : Nat
  wasTruncated : Bool
deriving Repr, DecidableEq

/-- The tag filter of `listSavedPapers` (applied only when `tag` is
truthy): case-insensitive exact membership. -/

def tagFilterStep (tag : Option String) (l : List SavedRow) : List SavedRow :=
  match tag with
  | some t =>
    if t == "" then l
    else l.filter fun r => r.tags.any fun x => lowerStr x == lowerStr t
  | none => l

/-- The text filter of `listSavedPapers` (applied only when
`filterText` is truthy): case-insensitive substring search over title
and abstract. -/

def textFilterStep (filterText : Option String) (l : List SavedRow) : List SavedRow :=
  match filterText with
  | some ft =>
    if ft == "" then l
    else l.filter fun r =>
      strIncludes (lowerStr r.title) (lowerStr ft) ||
      strIncludes (lowerStr r.abstract) (lowerStr ft)
  | none => l

/-- Embedding of the `listSavedPapers` tool of src/tools.ts.
`allPapers` is the result of
`SELECT ... FROM saved_papers ORDER BY saved_at DESC`. -/

def listSavedPapers (allPapers : List SavedRow) (filterText tag : Option String)
    (limit : Nat) : ListResult :=
  let effectiveLimit := min limit 100
  let filtered := textFilterStep filterText (tagFilterStep tag allPapers)
  let totalCount := filtered.length
  { papers := filtered.take effectiveLimit
    totalCount := totalCount
    wasTruncated := decide (totalCount > effectiveLimit) }

/-- Prompt version for the summary cache key
(`SUMMARY_PROMPT_VERSION` of src/tools.ts). -/

def SUMMARY_PROMPT_VERSION : String := "v1"

/-- Embedding of `summaryKey` of src/tools.ts: the composite cache key.
Note it is applied to the RAW tool input, not to a canonical id. -/

def summaryKey (arxivId : String) : String :=
  arxivId ++ ":" ++ SUMMARY_PROMPT_VERSION

/-- Outcome of the text-generation call of `summarizePaper`. -/

inductive GenOutcome where
  | ok (text : String)
  | failed
deriving Repr, DecidableEq

/-- Error kinds that `summarizePaper` reports. -/

inductive SummarizeError where
  | network
  | http (status : Nat)
  | notFound
  | genFailed
deriving Repr, DecidableEq

/-- Result of the `summarizePaper` tool
(`SummarizePaperResult` of src/tools.ts). -/

structure SummarizePaperResult where
  arxivId : String
  title : Option String := none
  summaryMd : String
  cached : Bool
  error : Option SummarizeError := none
deriving Repr, DecidableEq

/-- `SELECT summary_md FROM paper_summaries WHERE arxiv_id = key` over
the cache table (primary key, so first match). -/

def lookupCache (cache : List (String × String)) (k : String) : Option String :=
  (cache.find? fun p => p.1 == k).map fun p => p.2

/-- `INSERT OR REPLACE INTO paper_summaries` at key `k`. -/

def putCache (cache : List (String × String)) (k v : String) : List (String × String) :=
  (cache.filter fun p => !(p.1 == k)) ++ [(k, v)]

/-- Embedding of the `summarizePaper` tool of src/tools.ts: cache check
first (keyed by `summaryKey` of the raw input id), then fetch, then
generation, then a best-effort cache write. -/

def summarizePaper (cache : List (String × String)) (arxivId : String)
    (fetch : FetchOutcome) (gen : GenOutcome) :
    SummarizePaperResult × List (String × String) :=
  let cacheKey := summaryKey arxivId
  match lookupCache cache cacheKey with
  | some md =>
    ({ arxivId := arxivId, summaryMd := md, cached := true }, cache)
  | none =>
    match fetch with
    | .network =>
      ({ arxivId := arxivId, summaryMd := "", cached := false,
         error := some .network }, cache)
    | .http s =>
      ({ arxivId := arxivId, summaryMd := "", cached := false,
         error := some (.http s) }, cache)
    | .missing =>
      ({ arxivId := arxivId, summaryMd := "", cached := false,
         error := some .notFound }, cache)
    | .found paper =>
      match gen with
      | .failed =>
        ({ arxivId := arxivId, title := some paper.title, summaryMd := "",
           cached := false, error := some .genFailed }, cache)
      | .ok text =>
        ({ arxivId := arxivId, title := some paper.title, summaryMd := text,
           cached := false }, putCache cache cacheKey text)

/-- Concrete paper used by witnesses. -/

def paperC1 : ArxivPaper :=
  { arxivId := "2301.01234"
    title := "A Paper"
    published := "2023-01-15"
    abstract := "An abstract."
    url := "http://arxiv.org/abs/2301.01234" }

/-! ### Claim C2: remove -/

/-- A stored row whose title is the empty string. -/

def emptyTitleRow : SavedRow := { arxiv_id := "2301.01234", title := "" }

/-- A stored row with a normal title. -/

def rowC2 : SavedRow := { arxiv_id := "2301.01234", title := "A Paper" }

/-! ### Claim C4: list -/

/-- The conjunction of the tag and text filters of `listSavedPapers`
(each applied only when the corresponding argument is truthy). -/

def matchesFilters (filterText tag : Option String) (r : SavedRow) : Bool :=
  (match filterText with
   | some ft =>
     if ft == "" then true
     else
       strIncludes (lowerStr r.title) (lowerStr ft) ||
       strIncludes (lowerStr r.abstract) (lowerStr ft)
   | none => true) &&
  (match tag with
   | some t =>
     if t == "" then true
     else r.tags.any fun x => lowerStr x == lowerStr t
   | none => true)

/-- Eight stored rows in `saved_at`-descending order. -/

def rowsC4 : List SavedRow :=
  [{ arxiv_id := "2301.00008", title := "p8", saved_at := 8 },
   { arxiv_id := "2301.00007", title := "p7", saved_at := 7 },
   { arxiv_id := "2301.00006", title := "p6", saved_at := 6 },
   { arxiv_id := "2301.00005", title := "p5", saved_at := 5 },
   { arxiv_id := "2301.00004", title := "p4", saved_at := 4 },
   { arxiv_id := "2301.00003", title := "p3", saved_at := 3 },
   { arxiv_id := "2301.00002", title := "p2", saved_at := 2 },
   { arxiv_id := "2301.00001", title := "p1", saved_at := 1 }]

/-! ### Claim C7: summary cache key -/

/-- Concrete paper used by the C7 counterexample. -/

def paperC7 : ArxivPaper :=
  { arxivId := "2301.01234"
    title := "T"
    published := "2023-01-15"
    url := "http://arxiv.org/abs/2301.01234" }

/-! ### Query builder (`buildArxivQueryUrl` of src/lib/arxiv.ts, claim C8)

Two encoders act on the query text: the explicit `encodeURIComponent`
call of the source, and the `application/x-www-form-urlencoded`
serialisation applied by `URLSearchParams.toString()` to every
parameter value.  Both are embedded below (UTF-8 percent-encoding with
uppercase hex; the form serialiser maps space to `+`).  `formDecode` is
the spec-side single decoding step used to express what "decoding the
parameter once" recovers; it inverts the form serialisation on ASCII
text. -/

/-- Uppercase hex digit. -/

def toHexDigit (n : Nat) : Char := "0123456789ABCDEF".data.getD n '0'

/-- Percent-escape of one byte, uppercase hex. -/

def percentByte (n : Nat) : List Char := ['%', toHexDigit (n / 16), toHexDigit (n % 16)]

/-- UTF-8 bytes of a character. -/

def utf8Bytes (c : Char) : List Nat :=
  let n := c.toNat
  if n < 128 then [n]
  else if n < 2048 then [192 + n / 64, 128 + n % 64]
  else if n < 65536 then [224 + n / 4096, 128 + (n / 64) % 64, 128 + n % 64]
  else [240 + n / 262144, 128 + (n / 4096) % 64, 128 + (n / 64) % 64, 128 + n % 64]

/-- Characters `encodeURIComponent` leaves intact:
letters, digits, and `- _ . ! ~ * ( )` and the apostrophe. -/

def uriUnreserved (c : Char) : Bool :=
  isAlphaChar c || isDigitChar c || c == '-' || c == '_' || c == '.' || c == '!' ||
  c == '~' || c == '*' || c == Char.ofNat 39 || c == '(' || c == ')'

/-- JS `encodeURIComponent`. -/

def encodeURIComponent (s : String) : String :=
  String.mk (s.data.flatMap fun c =>
    if uriUnreserved c then [c] else (utf8Bytes c).flatMap percentByte)

/-- Characters the form serialisation of `URLSearchParams` leaves
intact: letters, digits, and `* - . _`. -/

def formUnreserved (c : Char) : Bool :=
  isAlphaChar c || isDigitChar c || c == '*' || c == '-' || c == '.' || c == '_'

/-- Form serialisation of one character (space becomes `+`). -/

def formEncodeChar (c : Char) : List Char :=
  if c == ' ' then ['+']
  else if formUnreserved c then [c]
  else (utf8Bytes c).flatMap percentByte

/-- The `application/x-www-form-urlencoded` serialisation that
`URLSearchParams.toString()` applies to each key and value. -/

def formEncode (s : String) : String := String.mk (s.data.flatMap formEncodeChar)

/-- `URLSearchParams.toString()`: `k=v` pairs joined with `&`, keys and
values form-encoded, in insertion order. -/

def serializeParams (params : List (String × String)) : String :=
  String.intercalate "&" (params.map fun p => formEncode p.1 ++ "=" ++ formEncode p.2)

/-- Search options of `buildArxivQueryUrl` with the defaults the source
destructuring supplies. -/

structure ArxivSearchOptions where
  maxResults : Nat := 10
  start : Nat := 0
  sortBy : String := "relevance"
  sortOrder : String := "descending"
  categories : Option (List String) := none
deriving Repr, DecidableEq

/-- The `searchQuery` local of `buildArxivQueryUrl`: the
URI-component-encoded query, wrapped with the raw `+AND+`/`+OR+`
category combination when categories are present. -/

def searchQueryValue (query : String) (categories : Option (List String)) : String :=
  match categories with
  | some cats =>
    if cats.isEmpty then encodeURIComponent query
    else
      "(" ++ encodeURIComponent query ++ ")+AND+(" ++
        String.intercalate "+OR+" (cats.map fun cat => "cat:" ++ cat) ++ ")"
  | none => encodeURIComponent query

/-- Embedding of `buildArxivQueryUrl` of src/lib/arxiv.ts. -/

def buildArxivQueryUrl (query : String) (options : ArxivSearchOptions) : String :=
  serializeParams
    [("search_query", "all:" ++ searchQueryValue query options.categories),
     ("start", toString options.start),
     ("max_results", toString options.maxResults),
     ("sortBy", options.sortBy),
     ("sortOrder", options.sortOrder)] |>
  ("https://export.arxiv.org/api/query?" ++ ·)

/-- Hex digit value (both cases), for the decoder. -/

def hexVal (c : Char) : Option Nat :=
  if 48 ≤ c.toNat ∧ c.toNat ≤ 57 then some (c.toNat - 48)
  else if 65 ≤ c.toNat ∧ c.toNat ≤ 70 then some (c.toNat - 55)
  else if 97 ≤ c.toNat ∧ c.toNat ≤ 102 then some (c.toNat - 87)
  else none

/-- One application of form-urldecoding (`+` to space, `%XX` to the
byte), on the ASCII fragment: the spec-side meaning of "decoding the
parameter once". -/

def formDecodeL : List Char → List Char
  | [] => []
  | '+' :: rest => ' ' :: formDecodeL rest
  | '%' :: h1 :: h2 :: rest =>
    (match hexVal h1, hexVal h2 with
     | some a, some b => Char.ofNat (16 * a + b) :: formDecodeL rest
     | _, _ => '%' :: formDecodeL (h1 :: h2 :: rest))
  | c :: rest => c :: formDecodeL rest

/-- One application of form-urldecoding on strings. -/

def formDecode (s : String) : String := String.mk (formDecodeL s.data)

example : normalizeArxivId "2301.01234v2" =
    { canonical := "2301.01234", version := some 2, versioned := some "2301.01234v2" } := by
  decide

example : normalizeArxivId "2301.01234" = { canonical := "2301.01234" } := by decide

example : normalizeArxivId "cs/9901001v3" =
    { canonical := "cs/9901001", version := some 3, versioned := some "cs/9901001v3" } := by
  decide

example : normalizeArxivId "hep-th/9901001v1" =
    { canonical := "hep-th/9901001", version := some 1, versioned := some "hep-th/9901001v1" } := by
  decide

example : normalizeArxivId "http://arxiv.org/abs/2301.01234v2" =
    { canonical := "2301.01234", version := some 2, versioned := some "2301.01234v2" } := by
  decide

example : normalizeArxivId "https://arxiv.org/pdf/2301.01234v2.pdf" =
    { canonical := "2301.01234", version := some 2, versioned := some "2301.01234v2" } := by
  decide

example : normalizeArxivId "https://arxiv.org/abs/2301.01234" = { canonical := "2301.01234" } := by
  decide

example : normalizeArxivId "v1v2" =
    { canonical := "v1", version := some 2, versioned := some "v1v2" } := by decide

example : normalizeArxivId "abv1v2" =
    { canonical := "abv1", version := some 2, versioned := some "abv1v2" } := by decide

example : isValidRaw "2301.01234v2" = true := by decide

example : isValidRaw "2301.01234" = true := by decide

example : isValidRaw "cs/9901001v3" = true := by decide

example : isValidRaw "hep-th/9901001" = true := by decide

example : isValidRaw "math.GT/0309136v2" = true := by decide

example : isValidRaw "https://arxiv.org/abs/2301.01234v2" = true := by decide

example : isValidRaw "https://arxiv.org/pdf/2301.01234v2.pdf" = true := by decide

example : isValidRaw "arxiv.org/abs/cs/9901001v1" = true := by decide

example : isValidRaw "abv1v2" = false := by decide

example : isValidRaw "" = false := by decide

/-! ### Character-level lemmas -/

theorem charEq_of_toNat {c d : Char} (h : c.toNat = d.toNat) : c = d := by
  apply Char.ext
  apply UInt32.ext
  exact h

theorem toNat_ofNat_valid {n : Nat} (h1 : 97 ≤ n) (h2 : n ≤ 122) :
    (Char.ofNat n).toNat = n := by
  have hv : n.isValidChar := Or.inl (by omega)
  simp [Char.ofNat, hv, Char.ofNatAux, Char.toNat, UInt32.toNat, BitVec.toNat_ofNatLt]

theorem lowerChar_toNat (c : Char) :
    (lowerChar c).toNat =
      if 65 ≤ c.toNat ∧ c.toNat ≤ 90 then c.toNat + 32 else c.toNat := by
  unfold lowerChar
  split
  · next hu => exact toNat_ofNat_valid (by omega) (by omega)
  · next hu => simp [hu]

theorem lowerChar_eq_self {c : Char} (h : c.toNat < 65 ∨ 90 < c.toNat) :
    lowerChar c = c := by
  unfold lowerChar
  split
  · next hu => omega
  · rfl

theorem isDigitChar_toNat {c : Char} (h : isDigitChar c = true) :
    48 ≤ c.toNat ∧ c.toNat ≤ 57 := by
  simpa [isDigitChar] using h

theorem lowerChar_of_digit {c : Char} (h : isDigitChar c = true) : lowerChar c = c :=
  lowerChar_eq_self (Or.inl (by have := isDigitChar_toNat h; omega))

theorem lowerChar_eq_slash_iff {c : Char} : lowerChar c = '/' ↔ c = '/' := by
  constructor
  · intro h
    have h2 := congrArg Char.toNat h
    rw [lowerChar_toNat] at h2
    have h47 : ('/' : Char).toNat = 47 := rfl
    split at h2
    · next hu => omega
    · exact charEq_of_toNat h2
  · intro h
    subst h
    decide

theorem lcEq_true_iff {p c : Char} : lcEq p c = true ↔ lowerChar p = lowerChar c := by
  simp [lcEq]

theorem digit_ne_of_lower_a {d : Char} (hd : isDigitChar d = true) :
    lowerChar d ≠ 'a' := by
  rw [lowerChar_of_digit hd]
  intro h
  subst h
  exact absurd hd (by decide)

theorem digit_ne_of_lower_p {d : Char} (hd : isDigitChar d = true) :
    lowerChar d ≠ 'p' := by
  rw [lowerChar_of_digit hd]
  intro h
  subst h
  exact absurd hd (by decide)

/-! ### Structure of successful strips -/

theorem ciStrip_some {pat : List Char} :
    ∀ {l r : List Char}, ciStrip pat l = some r →
      ∃ pre, l = pre ++ r ∧ List.Forall₂ (fun p c => lcEq p c = true) pat pre := by
  induction pat with
  | nil =>
    intro l r h
    simp [ciStrip] at h
    exact ⟨[], by simp [h], List.Forall₂.nil⟩
  | cons p ps ih =>
    intro l r h
    cases l with
    | nil => simp [ciStrip] at h
    | cons c cs =>
      unfold ciStrip at h
      split at h
      · next heq =>
        obtain ⟨pre, hpre, hf⟩ := ih h
        exact ⟨c :: pre, by simp [hpre], List.Forall₂.cons heq hf⟩
      · exact absurd h (by simp)

theorem ciStrip_self : ∀ (pat l : List Char), ciStrip pat (pat ++ l) = some l := by
  intro pat
  induction pat with
  | nil => intro l; rfl
  | cons p ps ih =>
    intro l
    unfold ciStrip
    simp [lcEq, ih]

theorem stripLit_some {pat : List Char} :
    ∀ {l r : List Char}, stripLit pat l = some r → l = pat ++ r := by
  induction pat with
  | nil =>
    intro l r h
    simp [stripLit] at h
    simp [h]
  | cons p ps ih =>
    intro l r h
    cases l with
    | nil => simp [stripLit] at h
    | cons c cs =>
      unfold stripLit at h
      split at h
      · next heq =>
        have := ih h
        simp only [beq_iff_eq] at heq
        simp [heq, this]
      · exact absurd h (by simp)

theorem marker_data : "arxiv.org/".data = ['a', 'r', 'x', 'i', 'v', '.', 'o', 'r', 'g', '/'] := rfl

theorem abs_data : "abs/".data = ['a', 'b', 's', '/'] := rfl

theorem pdf_data : "pdf/".data = ['p', 'd', 'f', '/'] := rfl

theorem ne_slash_of_lcEq {p c : Char} (h : lcEq p c = true) (hp : lowerChar p ≠ '/') :
    c ≠ '/' := by
  intro hc
  subst hc
  rw [lcEq_true_iff] at h
  exact hp (h.trans (by decide))

/-- Any successful match of the URL-marker literal exhibits a slash at
offset 9 followed by a character that lower-cases to `a` or `p`. -/

theorem stripMarker_shape {s r : List Char} (h : stripMarker s = some r) :
    ∃ a b0 bs, s = a ++ '/' :: b0 :: bs ∧ a.length = 9 ∧ '/' ∉ a ∧
      (lowerChar b0 = 'a' ∨ lowerChar b0 = 'p') := by
  unfold stripMarker at h
  cases h10 : ciStrip "arxiv.org/".data s with
  | none => rw [h10] at h; exact absurd h (by simp)
  | some r1 =>
    rw [h10] at h
    obtain ⟨pre, hs, hf⟩ := ciStrip_some h10
    rw [marker_data] at hf
    simp only [List.forall₂_cons_left_iff, List.forall₂_nil_left_iff] at hf
    obtain ⟨c0, _, h0, ⟨c1, _, h1, ⟨c2, _, h2, ⟨c3, _, h3, ⟨c4, _, h4, ⟨c5, _, h5,
      ⟨c6, _, h6, ⟨c7, _, h7, ⟨c8, _, h8, ⟨c9, _, h9, rfl, rfl⟩, rfl⟩, rfl⟩, rfl⟩,
      rfl⟩, rfl⟩, rfl⟩, rfl⟩, rfl⟩, rfl⟩ := hf
    have hc9 : c9 = '/' := by
      apply lowerChar_eq_slash_iff.mp
      rw [lcEq_true_iff] at h9
      rw [← h9]
      decide
    subst hc9
    have hmem : '/' ∉ [c0, c1, c2, c3, c4, c5, c6, c7, c8] := by
      intro hm
      simp only [List.mem_cons, List.not_mem_nil, or_false] at hm
      rcases hm with hm | hm | hm | hm | hm | hm | hm | hm | hm
      · exact ne_slash_of_lcEq h0 (by decide) hm.symm
      · exact ne_slash_of_lcEq h1 (by decide) hm.symm
      · exact ne_slash_of_lcEq h2 (by decide) hm.symm
      · exact ne_slash_of_lcEq h3 (by decide) hm.symm
      · exact ne_slash_of_lcEq h4 (by decide) hm.symm
      · exact ne_slash_of_lcEq h5 (by decide) hm.symm
      · exact ne_slash_of_lcEq h6 (by decide) hm.symm
      · exact ne_slash_of_lcEq h7 (by decide) hm.symm
      · exact ne_slash_of_lcEq h8 (by decide) hm.symm
    dsimp only at h
    have segShape : ∃ b0 bs, r1 = b0 :: bs ∧ (lowerChar b0 = 'a' ∨ lowerChar b0 = 'p') := by
      cases habs : ciStrip "abs/".data r1 with
      | some r2 =>
        obtain ⟨pre4, hr1, hf4⟩ := ciStrip_some habs
        rw [abs_data] at hf4
        simp only [List.forall₂_cons_left_iff, List.forall₂_nil_left_iff] at hf4
        obtain ⟨b0, u4, hb0, _, rfl⟩ := hf4
        refine ⟨b0, u4 ++ r2, by simp [hr1], Or.inl ?_⟩
        rw [lcEq_true_iff] at hb0
        rw [← hb0]
        decide
      | none =>
        rw [habs] at h
        dsimp only at h
        obtain ⟨pre4, hr1, hf4⟩ := ciStrip_some h
        simp only [List.forall₂_cons_left_iff, List.forall₂_nil_left_iff] at hf4
        obtain ⟨b0, u4, hb0, _, rfl⟩ := hf4
        refine ⟨b0, u4 ++ r, by simp [hr1], Or.inr ?_⟩
        rw [lcEq_true_iff] at hb0
        rw [← hb0]
        decide
    obtain ⟨b0, bs, hr1, hab⟩ := segShape
    exact ⟨[c0, c1, c2, c3, c4, c5, c6, c7, c8], b0, bs, by simp [hs, hr1], rfl, hmem, hab⟩

/-! ### Where the URL regex cannot match -/

theorem findMarker_none_of_stripMarker {l : List Char}
    (H : ∀ a s, l = a ++ s → stripMarker s = none) : findMarker l = none := by
  induction l with
  | nil => rfl
  | cons c cs ih =>
    unfold findMarker
    rw [H [] (c :: cs) rfl]
    exact ih (fun a s hs => H (c :: a) s (by simp [hs]))

theorem findMarker_none_noSlash {l : List Char} (h : ∀ c ∈ l, c ≠ '/') :
    findMarker l = none := by
  apply findMarker_none_of_stripMarker
  intro a s hs
  cases hsm : stripMarker s with
  | none => rfl
  | some r =>
    exfalso
    obtain ⟨a2, b0, bs, hshape, _, _, _⟩ := stripMarker_shape hsm
    have hm : '/' ∈ l := by
      rw [hs, hshape]
      simp
    exact h '/' hm rfl

theorem slash_split_unique :
    ∀ {u a w b : List Char}, u ++ '/' :: w = a ++ '/' :: b →
      '/' ∉ u → '/' ∉ a → u = a ∧ w = b := by
  intro u
  induction u with
  | nil =>
    intro a w b h hu ha
    cases a with
    | nil =>
      simp only [List.nil_append, List.cons.injEq, true_and] at h
      exact ⟨rfl, h⟩
    | cons x xs =>
      simp only [List.nil_append, List.cons_append, List.cons.injEq] at h
      have hx : x = '/' := h.1.symm
      subst hx
      exact absurd (List.mem_cons_self _ _) ha
  | cons y ys ih =>
    intro a w b h hu ha
    cases a with
    | nil =>
      simp only [List.cons_append, List.nil_append, List.cons.injEq] at h
      have hy : y = '/' := h.1
      subst hy
      exact absurd (List.mem_cons_self _ _) hu
    | cons x xs =>
      simp only [List.cons_append, List.cons.injEq] at h
      obtain ⟨rfl, h2⟩ := h
      have hr := ih h2 (fun hm => hu (List.mem_cons_of_mem _ hm))
        (fun hm => ha (List.mem_cons_of_mem _ hm))
      exact ⟨by rw [hr.1], hr.2⟩

theorem findMarker_none_oneSlash {u w : List Char} {d : Char}
    (hu : ∀ c ∈ u, c ≠ '/') (hw : ∀ c ∈ w, c ≠ '/') (hd : isDigitChar d = true) :
    findMarker (u ++ '/' :: d :: w) = none := by
  apply findMarker_none_of_stripMarker
  intro a s hs
  cases hsm : stripMarker s with
  | none => rfl
  | some r =>
    exfalso
    obtain ⟨a2, b0, bs, hshape, hlen, hna2, hb0⟩ := stripMarker_shape hsm
    rcases List.append_eq_append_iff.mp hs with ⟨a', ha', hsfx⟩ | ⟨c', hc', hspre⟩
    · -- the suffix s starts at or after the unique slash
      cases a' with
      | nil =>
        simp only [List.nil_append] at hsfx
        rw [hshape] at hsfx
        have h2 := slash_split_unique hsfx.symm hna2 (List.not_mem_nil _)
        rw [h2.1] at hlen
        simp at hlen
      | cons z zs =>
        simp only [List.cons_append, List.cons.injEq] at hsfx
        obtain ⟨_, h2⟩ := hsfx
        have hmem : '/' ∈ d :: w := by
          rw [h2, hshape]
          simp
        rcases List.mem_cons.mp hmem with hm | hm
        · exact absurd hd (by rw [← hm]; decide)
        · exact hw '/' hm rfl
    · -- the suffix s contains the unique slash, preceded by part of u
      rw [hshape] at hspre
      have hnc : '/' ∉ c' := fun hm => hu '/' (hc' ▸ List.mem_append_right a hm) rfl
      have h2 := slash_split_unique hspre hna2 hnc
      have hdb : b0 = d := (List.cons_eq_cons.mp h2.2).1
      have hdb0 : isDigitChar b0 = true := by rw [hdb]; exact hd
      rcases hb0 with hb | hb
      · exact digit_ne_of_lower_a hdb0 hb
      · exact digit_ne_of_lower_p hdb0 hb

/-! ### Where the URL regex does match -/

theorem findMarker_cons_eq (c : Char) (cs : List Char) :
    findMarker (c :: cs) =
      match stripMarker (c :: cs) with
      | some rest =>
        (match extractAfterMarker rest with
         | some cap => some cap
         | none => findMarker cs)
      | none => findMarker cs := rfl

theorem findMarker_skip {p : List Char} (l : List Char)
    (hp : ∀ c ∈ p, lowerChar c ≠ 'a') : findMarker (p ++ l) = findMarker l := by
  induction p with
  | nil => simp
  | cons c cs ih =>
    have hc : lcEq 'a' c = false := by
      cases hb : lcEq 'a' c
      · rfl
      · exfalso
        rw [lcEq_true_iff] at hb
        apply hp c (List.mem_cons_self _ _)
        rw [← hb]
        decide
    have hsm : stripMarker (c :: (cs ++ l)) = none := by
      unfold stripMarker
      rw [marker_data]
      simp [ciStrip, hc]
    show findMarker (c :: (cs ++ l)) = findMarker l
    rw [findMarker_cons_eq, hsm]
    exact ih (fun x hx => hp x (List.mem_cons_of_mem _ hx))

theorem findMarker_at {seg rest cap : List Char}
    (hseg : seg = "abs/".data ∨ seg = "pdf/".data)
    (hx : extractAfterMarker rest = some cap) :
    findMarker ("arxiv.org/".data ++ (seg ++ rest)) = some cap := by
  have hsm : stripMarker ("arxiv.org/".data ++ (seg ++ rest)) = some rest := by
    unfold stripMarker
    rw [ciStrip_self]
    rcases hseg with rfl | rfl
    · dsimp only
      rw [ciStrip_self]
    · dsimp only
      have habs : ciStrip "abs/".data ("pdf/".data ++ rest) = none := by
        rw [abs_data, pdf_data]
        simp [ciStrip, show lcEq 'a' 'p' = false from by decide]
      rw [habs]
      dsimp only
      rw [ciStrip_self]
  have hsm' : stripMarker ('a' :: ("rxiv.org/".data ++ (seg ++ rest))) = some rest := hsm
  show findMarker ('a' :: ("rxiv.org/".data ++ (seg ++ rest))) = some cap
  rw [findMarker_cons_eq, hsm']
  dsimp only
  rw [hx]

/-! ### The lazy capture after the marker -/

theorem ciEndsWith_digit {l : List Char} {d : Char} (hd : isDigitChar d = true) :
    ciEndsWith (l ++ [d]) ".pdf".data = false := by
  have hf : lcEq 'f' d = false := by
    cases hb : lcEq 'f' d
    · rfl
    · exfalso
      rw [lcEq_true_iff, lowerChar_of_digit hd] at hb
      have hdf : d = 'f' := by
        rw [← hb]
        decide
      rw [hdf] at hd
      exact absurd hd (by decide)
  unfold ciEndsWith
  rw [List.reverse_append]
  simp [ciStrip, hf]

theorem validCapture_of {l : List Char} (hne : l ≠ []) (hnl : noNL l = true) :
    validCapture l = true := by
  have hie : l.isEmpty = false := by
    cases l with
    | nil => exact absurd rfl hne
    | cons c cs => rfl
  simp [validCapture, hie, hnl]

theorem extractAfterMarker_plain {l : List Char} (hne : l ≠ [])
    (hnl : noNL l = true) (hend : ciEndsWith l ".pdf".data = false) :
    extractAfterMarker l = some l := by
  unfold extractAfterMarker
  rw [hend, validCapture_of hne hnl]
  simp

theorem extractAfterMarker_pdf {l : List Char} (hne : l ≠ []) (hnl : noNL l = true) :
    extractAfterMarker (l ++ ".pdf".data) = some l := by
  have hend : ciEndsWith (l ++ ".pdf".data) ".pdf".data = true := by
    unfold ciEndsWith
    rw [List.reverse_append, ciStrip_self]
    rfl
  have hdrop : dropLastN 4 (l ++ ".pdf".data) = l := by
    unfold dropLastN
    rw [List.reverse_append]
    rw [show (4 : Nat) = (".pdf".data.reverse : List Char).length from rfl]
    rw [List.drop_left, List.reverse_reverse]
  unfold extractAfterMarker
  rw [hend, hdrop, validCapture_of hne hnl]
  simp

/-! ### Runs of the version regex -/

theorem matchVersionAux_run :
    ∀ (rest accRev : List Char),
      (∀ a s, rest = a ++ s → isVSuffix s = false) → noNL rest = true →
      matchVersionAux accRev rest = some (accRev.reverse ++ rest, none) := by
  intro rest
  induction rest with
  | nil =>
    intro accRev h hn
    simp [matchVersionAux]
  | cons c cs ih =>
    intro accRev h hn
    have h1 : isVSuffix (c :: cs) = false := h [] _ rfl
    have hn1 : (c != '\n') = true ∧ noNL cs = true := by
      simpa [noNL, Bool.and_eq_true] using hn
    have hc : (c == '\n') = false := by
      have := bne_iff_ne.mp hn1.1
      exact beq_eq_false_iff_ne.mpr this
    unfold matchVersionAux
    rw [h1, hc]
    simp only [Bool.false_eq_true, if_false]
    rw [ih (c :: accRev) (fun a s hs => h (c :: a) s (by simp [hs])) hn1.2]
    simp

theorem matchVersionAux_run_v :
    ∀ (core vtail accRev : List Char),
      (∀ a s, core = a ++ s → s ≠ [] → isVSuffix (s ++ vtail) = false) →
      isVSuffix vtail = true → noNL core = true →
      matchVersionAux accRev (core ++ vtail) =
        some (accRev.reverse ++ core, some vtail.tail) := by
  intro core
  induction core with
  | nil =>
    intro vtail accRev h hv hn
    cases vtail with
    | nil => simp [isVSuffix] at hv
    | cons vc vcs =>
      simp only [List.nil_append]
      unfold matchVersionAux
      rw [hv]
      simp
  | cons c cs ih =>
    intro vtail accRev h hv hn
    have h1 : isVSuffix (c :: (cs ++ vtail)) = false := by
      have := h [] (c :: cs) rfl (by simp)
      simpa using this
    have hn1 : (c != '\n') = true ∧ noNL cs = true := by
      simpa [noNL, Bool.and_eq_true] using hn
    have hc : (c == '\n') = false := beq_eq_false_iff_ne.mpr (bne_iff_ne.mp hn1.1)
    show matchVersionAux accRev (c :: (cs ++ vtail)) = _
    unfold matchVersionAux
    rw [h1, hc]
    simp only [Bool.false_eq_true, if_false]
    rw [ih vtail (c :: accRev) (fun a s hs hne => h (c :: a) s (by simp [hs]) hne) hv hn1.2]
    simp

theorem matchVersion_run {l : List Char} (hne : l ≠ [])
    (h : ∀ a s, l = a ++ s → a ≠ [] → isVSuffix s = false) (hn : noNL l = true) :
    matchVersion l = some (l, none) := by
  cases l with
  | nil => exact absurd rfl hne
  | cons c cs =>
    have hn1 : (c != '\n') = true ∧ noNL cs = true := by
      simpa [noNL, Bool.and_eq_true] using hn
    have hc : (c == '\n') = false := beq_eq_false_iff_ne.mpr (bne_iff_ne.mp hn1.1)
    unfold matchVersion
    dsimp only
    rw [hc]
    simp only [Bool.false_eq_true, if_false]
    rw [matchVersionAux_run cs [c] (fun a s hs => h (c :: a) s (by simp [hs]) (by simp)) hn1.2]
    simp

theorem matchVersion_run_v {core vtail : List Char} (hne : core ≠ [])
    (h : ∀ a s, core = a ++ s → s ≠ [] → isVSuffix (s ++ vtail) = false)
    (hv : isVSuffix vtail = true) (hn : noNL core = true) :
    matchVersion (core ++ vtail) = some (core, some vtail.tail) := by
  cases core with
  | nil => exact absurd rfl hne
  | cons c cs =>
    have hn1 : (c != '\n') = true ∧ noNL cs = true := by
      simpa [noNL, Bool.and_eq_true] using hn
    have hc : (c == '\n') = false := beq_eq_false_iff_ne.mpr (bne_iff_ne.mp hn1.1)
    show matchVersion (c :: (cs ++ vtail)) = _
    unfold matchVersion
    dsimp only
    rw [hc]
    simp only [Bool.false_eq_true, if_false]
    rw [matchVersionAux_run_v cs vtail [c]
      (fun a s hs hne2 => h (c :: a) s (by simp [hs]) hne2) hv hn1.2]
    simp

/-! ### Structure of valid cores and bare ids -/

theorem isNewCore_shape {l : List Char} (h : isNewCore l = true) :
    ∃ a b, l = a ++ '.' :: b ∧ a ≠ [] ∧ a.all isDigitChar = true ∧
      b ≠ [] ∧ b.all isDigitChar = true := by
  unfold isNewCore at h
  cases hd : l.drop 4 with
  | nil => rw [hd] at h; simp at h
  | cons c ds =>
    rw [hd] at h
    simp only [Bool.and_eq_true, beq_iff_eq, Bool.or_eq_true] at h
    obtain ⟨⟨⟨⟨hlen, hta⟩, hdot⟩, hdslen⟩, hdsall⟩ := h
    refine ⟨l.take 4, ds, ?_, ?_, hta, ?_, hdsall⟩
    · rw [← hdot, ← hd]
      exact (List.take_append_drop 4 l).symm
    · intro hnil
      rw [hnil] at hlen
      simp at hlen
    · intro hnil
      rw [hnil] at hdslen
      simp at hdslen

theorem isOldCore_shape {l : List Char} (h : isOldCore l = true) :
    ∃ subj ds, l = subj ++ '/' :: ds ∧ subj ≠ [] ∧
      (∀ c ∈ subj, isSubjChar c = true) ∧ ds ≠ [] ∧ ds.all isDigitChar = true := by
  unfold isOldCore at h
  rw [List.span_eq_take_drop] at h
  cases hd : l.dropWhile (fun c => c != '/') with
  | nil => rw [hd] at h; simp at h
  | cons d ds =>
    rw [hd] at h
    simp only [Bool.and_eq_true, beq_iff_eq] at h
    obtain ⟨⟨⟨⟨hne, hsubj⟩, hslash⟩, hdslen⟩, hdsall⟩ := h
    refine ⟨l.takeWhile (fun c => c != '/'), ds, ?_, ?_, ?_, ?_, hdsall⟩
    · have h0 := (List.takeWhile_append_dropWhile (fun c => c != '/') l).symm
      rw [hd, hslash] at h0
      exact h0
    · intro hnil
      rw [hnil] at hne
      simp at hne
    · exact fun c hc => List.all_eq_true.mp hsubj c hc
    · intro hnil
      rw [hnil] at hdslen
      simp at hdslen

theorem drop_length_takeWhile (p : Char → Bool) :
    ∀ r : List Char, r.drop (r.takeWhile p).length = r.dropWhile p := by
  intro r
  induction r with
  | nil => rfl
  | cons a t ih =>
    by_cases hp : p a = true
    · simp [List.takeWhile_cons, List.dropWhile_cons, hp, ih]
    · simp [List.takeWhile_cons, List.dropWhile_cons, hp]

theorem dropVDigits_some {l core : List Char} (h : dropVDigits l = some core) :
    ∃ ds, ds ≠ [] ∧ ds.all isDigitChar = true ∧ l = core ++ 'v' :: ds := by
  unfold dropVDigits at h
  rw [drop_length_takeWhile] at h
  split at h
  · simp at h
  · next hne =>
    cases hd : l.reverse.dropWhile isDigitChar with
    | nil => rw [hd] at h; simp at h
    | cons c rest =>
      rw [hd] at h
      dsimp only at h
      split at h
      · next hcv =>
        have hcore : rest.reverse = core := Option.some.inj h
        have hcv' : c = 'v' := beq_iff_eq.mp hcv
        subst hcv'
        refine ⟨(l.reverse.takeWhile isDigitChar).reverse, ?_, ?_, ?_⟩
        · intro hnil
          rw [List.reverse_eq_nil_iff] at hnil
          rw [hnil] at hne
          simp at hne
        · rw [List.all_eq_true]
          intro x hx
          rw [List.mem_reverse] at hx
          exact List.mem_takeWhile_imp hx
        · have hsplit : l.reverse = l.reverse.takeWhile isDigitChar ++ ('v' :: rest) := by
            rw [← hd]
            exact (List.takeWhile_append_dropWhile isDigitChar l.reverse).symm
          have hl := congrArg List.reverse hsplit
          rw [List.reverse_reverse] at hl
          rw [← hcore]
          conv_lhs => rw [hl]
          simp
      · simp at h

theorem isCore_ne_nil {l : List Char} (h : isCore l = true) : l ≠ [] := by
  intro hnil
  subst hnil
  exact absurd h (by decide)

/-! ### Character classes of cores -/

theorem digit_ne_slash {c : Char} (h : isDigitChar c = true) : c ≠ '/' := by
  intro hc
  subst hc
  exact absurd h (by decide)

theorem digit_ne_v {c : Char} (h : isDigitChar c = true) : c ≠ 'v' := by
  intro hc
  subst hc
  exact absurd h (by decide)

theorem digit_ne_nl {c : Char} (h : isDigitChar c = true) : c ≠ '\n' := by
  intro hc
  subst hc
  exact absurd h (by decide)

theorem subjChar_ne_slash {c : Char} (h : isSubjChar c = true) : c ≠ '/' := by
  intro hc
  subst hc
  exact absurd h (by decide)

theorem subjChar_ne_nl {c : Char} (h : isSubjChar c = true) : c ≠ '\n' := by
  intro hc
  subst hc
  exact absurd h (by decide)

theorem newCore_chars {l : List Char} (h : isNewCore l = true) :
    ∀ c ∈ l, isDigitChar c = true ∨ c = '.' := by
  obtain ⟨a, b, rfl, _, ha, _, hb⟩ := isNewCore_shape h
  intro c hc
  rcases List.mem_append.mp hc with hc | hc
  · exact Or.inl (List.all_eq_true.mp ha c hc)
  · rcases List.mem_cons.mp hc with rfl | hc
    · exact Or.inr rfl
    · exact Or.inl (List.all_eq_true.mp hb c hc)

theorem newCore_no_v {l : List Char} (h : isNewCore l = true) : ∀ c ∈ l, c ≠ 'v' := by
  intro c hc
  rcases newCore_chars h c hc with hd | rfl
  · exact digit_ne_v hd
  · decide

theorem noNL_of_chars {l : List Char} (h : ∀ c ∈ l, c ≠ '\n') : noNL l = true := by
  rw [noNL, List.all_eq_true]
  intro x hx
  exact bne_iff_ne.mpr (h x hx)

theorem core_chars_nl {l : List Char} (h : isCore l = true) : ∀ c ∈ l, c ≠ '\n' := by
  simp only [isCore, Bool.or_eq_true] at h
  rcases h with h | h
  · intro c hc
    rcases newCore_chars h c hc with hd | rfl
    · exact digit_ne_nl hd
    · decide
  · obtain ⟨subj, ds, rfl, _, hsub, _, hds⟩ := isOldCore_shape h
    intro c hc
    rcases List.mem_append.mp hc with hc | hc
    · exact subjChar_ne_nl (hsub c hc)
    · rcases List.mem_cons.mp hc with rfl | hc
      · decide
      · exact digit_ne_nl (List.all_eq_true.mp hds c hc)

/-! ### No version split strictly inside a core -/

theorem no_vsuffix_of_no_v {l : List Char} (h : ∀ c ∈ l, c ≠ 'v') :
    ∀ a s, l = a ++ s → isVSuffix s = false := by
  intro a s hs
  cases s with
  | nil => rfl
  | cons c t =>
    have hc : c ≠ 'v' :=
      h c (by rw [hs]; exact List.mem_append_right a (List.mem_cons_self c t))
    simp [isVSuffix, beq_eq_false_iff_ne.mpr hc]

theorem oldCore_no_vsuffix {subj ds : List Char}
    (hds : ds.all isDigitChar = true) :
    ∀ a s, subj ++ '/' :: ds = a ++ s → isVSuffix s = false := by
  intro a s hs
  cases s with
  | nil => rfl
  | cons c t =>
    rcases List.append_eq_append_iff.mp hs with ⟨a', _, h2⟩ | ⟨c', _, h2⟩
    · cases a' with
      | nil =>
        simp only [List.nil_append] at h2
        obtain ⟨h3, _⟩ := List.cons_eq_cons.mp h2
        rw [← h3]
        simp [isVSuffix]
      | cons z zs =>
        simp only [List.cons_append] at h2
        obtain ⟨_, h3⟩ := List.cons_eq_cons.mp h2
        have hcd : isDigitChar c = true := by
          have hm : c ∈ ds := by
            rw [h3]
            exact List.mem_append_right zs (List.mem_cons_self c t)
          exact List.all_eq_true.mp hds c hm
        simp [isVSuffix, beq_eq_false_iff_ne.mpr (digit_ne_v hcd)]
    · cases c' with
      | nil =>
        simp only [List.nil_append] at h2
        obtain ⟨h3, _⟩ := List.cons_eq_cons.mp h2
        rw [h3]
        simp [isVSuffix]
      | cons y ys =>
        simp only [List.cons_append] at h2
        obtain ⟨_, h3⟩ := List.cons_eq_cons.mp h2
        have hmem : '/' ∈ t := by
          rw [h3]
          exact List.mem_append_right ys (List.mem_cons_self _ _)
        have hall : t.all isDigitChar = false := by
          cases hb : t.all isDigitChar
          · rfl
          · exact absurd (List.all_eq_true.mp hb '/' hmem) (by decide)
        simp [isVSuffix, hall]

theorem vsuffix_append_false {s : List Char} (vds : List Char) (hs : s ≠ []) :
    isVSuffix (s ++ 'v' :: vds) = false := by
  cases s with
  | nil => exact absurd rfl hs
  | cons c t =>
    have hmem : 'v' ∈ t ++ 'v' :: vds := List.mem_append_right t (List.mem_cons_self _ _)
    have hall : (t ++ 'v' :: vds).all isDigitChar = false := by
      cases hb : (t ++ 'v' :: vds).all isDigitChar
      · rfl
      · exact absurd (List.all_eq_true.mp hb 'v' hmem) (by decide)
    show isVSuffix (c :: (t ++ 'v' :: vds)) = false
    simp [isVSuffix, hall]

/-! ### The regexes on cores and bare ids -/

theorem findMarker_of_core {l : List Char} (h : isCore l = true) : findMarker l = none := by
  simp only [isCore, Bool.or_eq_true] at h
  rcases h with h | h
  · apply findMarker_none_noSlash
    intro c hc
    rcases newCore_chars h c hc with hd | rfl
    · exact digit_ne_slash hd
    · decide
  · obtain ⟨subj, ds, rfl, _, hsub, hdne, hds⟩ := isOldCore_shape h
    cases ds with
    | nil => exact absurd rfl hdne
    | cons d rest =>
      apply findMarker_none_oneSlash
      · exact fun c hc => subjChar_ne_slash (hsub c hc)
      · intro c hc
        exact digit_ne_slash (List.all_eq_true.mp hds c (List.mem_cons_of_mem d hc))
      · exact List.all_eq_true.mp hds d (List.mem_cons_self _ _)

theorem matchVersion_of_core {l : List Char} (h : isCore l = true) :
    matchVersion l = some (l, none) := by
  apply matchVersion_run (isCore_ne_nil h)
  · intro a s hs _
    have h2 := h
    simp only [isCore, Bool.or_eq_true] at h2
    rcases h2 with h2 | h2
    · exact no_vsuffix_of_no_v (newCore_no_v h2) a s hs
    · obtain ⟨subj, ds, heq, _, _, _, hds⟩ := isOldCore_shape h2
      exact oldCore_no_vsuffix hds a s (heq ▸ hs)
  · exact noNL_of_chars (core_chars_nl h)

theorem isBareId_cases {l : List Char} (h : isBareId l = true) :
    isCore l = true ∨
    ∃ core ds, isCore core = true ∧ ds ≠ [] ∧ ds.all isDigitChar = true ∧
      l = core ++ 'v' :: ds := by
  simp only [isBareId, Bool.or_eq_true] at h
  rcases h with h | h
  · exact Or.inl h
  · cases hdv : dropVDigits l with
    | none => rw [hdv] at h; simp at h
    | some core =>
      rw [hdv] at h
      obtain ⟨ds, hdne, hdall, hl⟩ := dropVDigits_some hdv
      exact Or.inr ⟨core, ds, h, hdne, hdall, hl⟩

theorem matchVersion_of_bare_v {core ds : List Char} (hc : isCore core = true)
    (hdne : ds ≠ []) (hdall : ds.all isDigitChar = true) :
    matchVersion (core ++ 'v' :: ds) = some (core, some ds) := by
  have hie : ds.isEmpty = false := by
    cases ds with
    | nil => exact absurd rfl hdne
    | cons a b => rfl
  have hv : isVSuffix ('v' :: ds) = true := by
    simp [isVSuffix, hie, hdall]
  have hrun := matchVersion_run_v (isCore_ne_nil hc)
    (fun a s _ hsne => vsuffix_append_false ds hsne) hv
    (noNL_of_chars (core_chars_nl hc))
  simpa using hrun

theorem findMarker_of_bare {l : List Char} (h : isBareId l = true) : findMarker l = none := by
  rcases isBareId_cases h with hc | ⟨core, ds, hc, _, hdall, rfl⟩
  · exact findMarker_of_core hc
  · simp only [isCore, Bool.or_eq_true] at hc
    rcases hc with hc | hc
    · apply findMarker_none_noSlash
      intro c hcm
      rcases List.mem_append.mp hcm with hm | hm
      · rcases newCore_chars hc c hm with hd | rfl
        · exact digit_ne_slash hd
        · decide
      · rcases List.mem_cons.mp hm with rfl | hm
        · decide
        · exact digit_ne_slash (List.all_eq_true.mp hdall c hm)
    · obtain ⟨subj, ds7, heq, _, hsub, hdne7, hds7⟩ := isOldCore_shape hc
      cases ds7 with
      | nil => exact absurd rfl hdne7
      | cons d rest =>
        rw [heq]
        have hshape : (subj ++ '/' :: d :: rest) ++ 'v' :: ds =
            subj ++ '/' :: d :: (rest ++ 'v' :: ds) := by
          simp
        rw [hshape]
        apply findMarker_none_oneSlash
        · exact fun c hcm => subjChar_ne_slash (hsub c hcm)
        · intro c hcm
          rcases List.mem_append.mp hcm with hm | hm
          · exact digit_ne_slash (List.all_eq_true.mp hds7 c (List.mem_cons_of_mem d hm))
          · rcases List.mem_cons.mp hm with rfl | hm
            · decide
            · exact digit_ne_slash (List.all_eq_true.mp hdall c hm)
        · exact List.all_eq_true.mp hds7 d (List.mem_cons_self _ _)

theorem bare_ne_nil {l : List Char} (h : isBareId l = true) : l ≠ [] := by
  rcases isBareId_cases h with hc | ⟨core, ds, hc, _, _, rfl⟩
  · exact isCore_ne_nil hc
  · intro hnil
    exact isCore_ne_nil hc (List.append_eq_nil.mp hnil).1

theorem bare_noNL {l : List Char} (h : isBareId l = true) : noNL l = true := by
  rcases isBareId_cases h with hc | ⟨core, ds, hc, _, hdall, rfl⟩
  · exact noNL_of_chars (core_chars_nl hc)
  · apply noNL_of_chars
    intro c hcm
    rcases List.mem_append.mp hcm with hm | hm
    · exact core_chars_nl hc c hm
    · rcases List.mem_cons.mp hm with rfl | hm
      · decide
      · exact digit_ne_nl (List.all_eq_true.mp hdall c hm)

theorem exists_last {l : List Char} (h : l ≠ []) :
    ∃ init lst, l = init ++ [lst] ∧ lst ∈ l := by
  cases hr : l.reverse with
  | nil => exact absurd (List.reverse_eq_nil_iff.mp hr) h
  | cons c t =>
    have hl : l = t.reverse ++ [c] := by
      have h2 := congrArg List.reverse hr
      rw [List.reverse_reverse] at h2
      rw [h2]
      simp
    exact ⟨t.reverse, c, hl, by rw [hl]; simp⟩

theorem bare_last_digit {l : List Char} (h : isBareId l = true) :
    ∃ init d, l = init ++ [d] ∧ isDigitChar d = true := by
  have key : ∀ m : List Char, m ≠ [] → m.all isDigitChar = true →
      ∀ pre : List Char, ∃ init d, pre ++ m = init ++ [d] ∧ isDigitChar d = true := by
    intro m hm hall pre
    obtain ⟨mi, d, hmeq, hdm⟩ := exists_last hm
    refine ⟨pre ++ mi, d, ?_, List.all_eq_true.mp hall d hdm⟩
    rw [hmeq]
    simp
  rcases isBareId_cases h with hc | ⟨core, ds, _, hdne, hdall, rfl⟩
  · simp only [isCore, Bool.or_eq_true] at hc
    rcases hc with hc | hc
    · obtain ⟨a, b, rfl, _, _, hbne, hball⟩ := isNewCore_shape hc
      have := key b hbne hball (a ++ ['.'])
      simpa using this
    · obtain ⟨subj, ds7, rfl, _, _, hdne7, hds7⟩ := isOldCore_shape hc
      have := key ds7 hdne7 hds7 (subj ++ ['/'])
      simpa using this
  · have := key ds hdne hdall (core ++ ['v'])
    simpa using this

theorem bare_not_pdf {l : List Char} (h : isBareId l = true) :
    ciEndsWith l ".pdf".data = false := by
  obtain ⟨init, d, rfl, hd⟩ := bare_last_digit h
  exact ciEndsWith_digit hd

/-! ### Canonicalisation always lands on a core -/

theorem extractedId_of_none {x : String} (h : findMarker x.data = none) :
    extractedId x = x := by
  unfold extractedId
  rw [h]

theorem extractedId_of_some {x : String} {cap : List Char}
    (h : findMarker x.data = some cap) : extractedId x = String.mk cap := by
  unfold extractedId
  rw [h]

theorem normalizeArxivId_of_vnone {x : String} {canon : List Char}
    (h : matchVersion (extractedId x).data = some (canon, none)) :
    normalizeArxivId x = { canonical := String.mk canon } := by
  unfold normalizeArxivId
  rw [h]

theorem normalizeArxivId_of_vsome {x : String} {canon ds : List Char}
    (h : matchVersion (extractedId x).data = some (canon, some ds)) :
    normalizeArxivId x =
      { canonical := String.mk canon
        version := some (digitsToNat ds)
        versioned := some (extractedId x) } := by
  unfold normalizeArxivId
  rw [h]

theorem canonical_of_bare {x : String} {l : List Char}
    (hid : extractedId x = String.mk l) (hb : isBareId l = true) :
    ∃ core, isCore core = true ∧ (normalizeArxivId x).canonical = String.mk core := by
  have hdata : (extractedId x).data = l := by rw [hid]
  rcases isBareId_cases hb with hc | ⟨core, ds, hc, hdne, hdall, rfl⟩
  · refine ⟨l, hc, ?_⟩
    have hm : matchVersion (extractedId x).data = some (l, none) := by
      rw [hdata]
      exact matchVersion_of_core hc
    rw [normalizeArxivId_of_vnone hm]
  · refine ⟨core, hc, ?_⟩
    have hm : matchVersion (extractedId x).data = some (core, some ds) := by
      rw [hdata]
      exact matchVersion_of_bare_v hc hdne hdall
    rw [normalizeArxivId_of_vsome hm]

theorem extract_of_bareOptPdf {rest : List Char} (hr : isBareOptPdf rest = true) :
    ∃ bare, isBareId bare = true ∧ extractAfterMarker rest = some bare := by
  unfold isBareOptPdf at hr
  rw [Bool.or_eq_true] at hr
  rcases hr with hr | hr
  · exact ⟨rest, hr, extractAfterMarker_plain (bare_ne_nil hr) (bare_noNL hr) (bare_not_pdf hr)⟩
  · cases hsl : stripLit ".pdf".data.reverse rest.reverse with
    | none => rw [hsl] at hr; simp at hr
    | some r =>
      rw [hsl] at hr
      have hrest : rest = r.reverse ++ ".pdf".data := by
        have h2 := congrArg List.reverse (stripLit_some hsl)
        rw [List.reverse_reverse] at h2
        rw [h2]
        simp
      refine ⟨r.reverse, hr, ?_⟩
      rw [hrest]
      exact extractAfterMarker_pdf (bare_ne_nil hr) (bare_noNL hr)

theorem canonical_of_url_case {x : String} {p rest : List Char} (seg : List Char)
    (hx : x.data = p ++ ("arxiv.org/".data ++ (seg ++ rest)))
    (hp : ∀ c ∈ p, lowerChar c ≠ 'a')
    (hseg : seg = "abs/".data ∨ seg = "pdf/".data)
    (hr : isBareOptPdf rest = true) :
    ∃ core, isCore core = true ∧ (normalizeArxivId x).canonical = String.mk core := by
  obtain ⟨bare, hb, hext⟩ := extract_of_bareOptPdf hr
  have hfm : findMarker x.data = some bare := by
    rw [hx, findMarker_skip _ hp]
    exact findMarker_at hseg hext
  exact canonical_of_bare (extractedId_of_some hfm) hb

theorem abs_marker_split : "arxiv.org/abs/".data = "arxiv.org/".data ++ "abs/".data := rfl

theorem pdf_marker_split : "arxiv.org/pdf/".data = "arxiv.org/".data ++ "pdf/".data := rfl

theorem canonical_of_scheme {x : String} {p : List Char}
    (hp : ∀ c ∈ p, lowerChar c ≠ 'a')
    (hcase :
      (match stripLit (p ++ "arxiv.org/abs/".data) x.data with
       | some rest => isBareOptPdf rest
       | none => false) = true ∨
      (match stripLit (p ++ "arxiv.org/pdf/".data) x.data with
       | some rest => isBareOptPdf rest
       | none => false) = true) :
    ∃ core, isCore core = true ∧ (normalizeArxivId x).canonical = String.mk core := by
  rcases hcase with hc | hc
  · cases hsl : stripLit (p ++ "arxiv.org/abs/".data) x.data with
    | none => rw [hsl] at hc; simp at hc
    | some rest =>
      rw [hsl] at hc
      have hx := stripLit_some hsl
      rw [abs_marker_split] at hx
      refine canonical_of_url_case "abs/".data ?_ hp (Or.inl rfl) hc
      rw [hx]
      simp
  · cases hsl : stripLit (p ++ "arxiv.org/pdf/".data) x.data with
    | none => rw [hsl] at hc; simp at hc
    | some rest =>
      rw [hsl] at hc
      have hx := stripLit_some hsl
      rw [pdf_marker_split] at hx
      refine canonical_of_url_case "pdf/".data ?_ hp (Or.inr rfl) hc
      rw [hx]
      simp

theorem canonical_is_core {x : String} (h : isValidRaw x = true) :
    ∃ core, isCore core = true ∧ (normalizeArxivId x).canonical = String.mk core := by
  unfold isValidRaw at h
  rw [Bool.or_eq_true] at h
  rcases h with h | h
  · have hfm : findMarker x.data = none := findMarker_of_bare h
    exact canonical_of_bare (by rw [extractedId_of_none hfm]) h
  · rw [List.any_eq_true] at h
    obtain ⟨p, hpmem, hcase⟩ := h
    rw [Bool.or_eq_true] at hcase
    simp only [urlSchemes, List.mem_cons, List.not_mem_nil, or_false] at hpmem
    rcases hpmem with rfl | rfl | rfl | rfl | rfl
    · exact canonical_of_scheme (by decide) hcase
    · exact canonical_of_scheme (by decide) hcase
    · exact canonical_of_scheme (by decide) hcase
    · exact canonical_of_scheme (by decide) hcase
    · exact canonical_of_scheme (by decide) hcase

theorem canonical_fix {core : List Char} (hc : isCore core = true) :
    (normalizeArxivId (String.mk core)).canonical = String.mk core := by
  have hid : extractedId (String.mk core) = String.mk core :=
    extractedId_of_none (findMarker_of_core hc)
  have hm : matchVersion (extractedId (String.mk core)).data = some (core, none) := by
    rw [hid]
    exact matchVersion_of_core hc
  rw [normalizeArxivId_of_vnone hm]

theorem core_no_trailing {l : List Char} (h : isCore l = true) :
    hasTrailingVSuffix (String.mk l) = false := by
  unfold hasTrailingVSuffix
  cases hdv : dropVDigits (String.mk l).data with
  | none => rfl
  | some c =>
    obtain ⟨ds, hdne, hdall, hl0⟩ := dropVDigits_some hdv
    have hl : l = c ++ 'v' :: ds := hl0
    cases c with
    | nil => rfl
    | cons c0 ct =>
      exfalso
      have hie : ds.isEmpty = false := by
        cases ds with
        | nil => exact absurd rfl hdne
        | cons a b => rfl
      have hvs : isVSuffix ('v' :: ds) = true := by simp [isVSuffix, hie, hdall]
      have h2 := h
      simp only [isCore, Bool.or_eq_true] at h2
      rcases h2 with h2 | h2
      · have hfalse := no_vsuffix_of_no_v (newCore_no_v h2) (c0 :: ct) ('v' :: ds) hl
        rw [hvs] at hfalse
        simp at hfalse
      · obtain ⟨subj, ds7, heq, _, _, _, hds7⟩ := isOldCore_shape h2
        have hfalse := oldCore_no_vsuffix hds7 (c0 :: ct) ('v' :: ds) (heq ▸ hl)
        rw [hvs] at hfalse
        simp at hfalse

/-- C5: for every valid raw identifier (bare old-style id, bare
new-style id, with or without a version suffix, given as a URL or as a
bare id), `normalizeArxivId` is idempotent:
normalising the canonical form again returns the same canonical form. -/

theorem C5_normalize_idempotent (x : String) (h : isValidRaw x = true) :
    (normalizeArxivId (normalizeArxivId x).canonical).canonical =
      (normalizeArxivId x).canonical := by
  obtain ⟨core, hc, hcanon⟩ := canonical_is_core h
  rw [hcanon, canonical_fix hc]

theorem C5_witness :
    isValidRaw "https://arxiv.org/abs/2301.01234v2" = true ∧
    (normalizeArxivId
        (normalizeArxivId "https://arxiv.org/abs/2301.01234v2").canonical).canonical =
      (normalizeArxivId "https://arxiv.org/abs/2301.01234v2").canonical :=
  ⟨by decide, C5_normalize_idempotent _ (by decide)⟩

/-- C6 counterexample: on the input `abv1v2` the lazy version regex
splits at the last `v`-digits run, so the canonical form `abv1` itself
still ends with a version suffix `v1`; the data-model invariant of the
claim fails for this input (which is not a valid arXiv identifier). -/

theorem C6_counterexample :
    (normalizeArxivId "abv1v2").canonical = "abv1" ∧
    hasTrailingVSuffix (normalizeArxivId "abv1v2").canonical = true ∧
    (normalizeArxivId "abv1").canonical = "ab" := by decide

/-- C6 amended: for every input the `versioned` field is present iff the
`version` field is present; and for every valid raw identifier the
canonical form never ends with a trailing version suffix.  (As stated
over all inputs the trailing-suffix half is false, see the
counterexample.) -/

theorem C6_invariants (x : String) :
    ((normalizeArxivId x).versioned.isSome = (normalizeArxivId x).version.isSome) ∧
    (isValidRaw x = true →
      hasTrailingVSuffix (normalizeArxivId x).canonical = false) := by
  constructor
  · unfold normalizeArxivId
    cases matchVersion (extractedId x).data with
    | none => rfl
    | some p =>
      obtain ⟨canon, vds⟩ := p
      cases vds with
      | none => rfl
      | some ds => rfl
  · intro h
    obtain ⟨core, hc, hcanon⟩ := canonical_is_core h
    rw [hcanon]
    exact core_no_trailing hc

theorem C6_witness :
    hasTrailingVSuffix (normalizeArxivId "2301.01234v2").canonical = false ∧
    ((normalizeArxivId "2301.01234v2").versioned.isSome =
      (normalizeArxivId "2301.01234v2").version.isSome) :=
  ⟨(C6_invariants "2301.01234v2").2 (by decide), (C6_invariants "2301.01234v2").1⟩

example :
    parseEntry
      { id := some "http://arxiv.org/abs/2301.01234v2"
        title := some "A Great  Paper"
        published := some "2023-01-15T00:00:00Z"
        summary := some " An  abstract. "
        author := some [{ name := some "Alice" }, { name := none }]
        link := some [{ rel := some "alternate", type := some "text/html",
                        href := some "http://arxiv.org/abs/2301.01234v2" },
                      { rel := some "related", type := some "application/pdf",
                        href := some "http://arxiv.org/pdf/2301.01234v2" }]
        category := some [{ term := some "cs.AI" }] } =
    some
      { arxivId := "2301.01234"
        arxivIdVersioned := some "2301.01234v2"
        version := some 2
        title := "A Great Paper"
        authors := ["Alice"]
        published := "2023-01-15T00:00:00Z"
        abstract := "An abstract."
        url := "http://arxiv.org/abs/2301.01234v2"
        pdfUrl := some "http://arxiv.org/pdf/2301.01234v2"
        categories := some ["cs.AI"] } := by decide

example :
    parseEntry
      { id := some "http://arxiv.org/abs/2301.99999"
        title := some "Minimal"
        published := some "2023-01-01" } =
    some
      { arxivId := "2301.99999"
        title := "Minimal"
        published := "2023-01-01"
        abstract := ""
        url := "http://arxiv.org/abs/2301.99999" } := by decide

example :
    parseEntry { title := some "No id", published := some "2023" } = none := by decide

theorem parseEntry_isSome (e : AtomEntry) : (parseEntry e).isSome = wellFormedEntry e := by
  unfold parseEntry wellFormedEntry
  cases h1 : (e.id.getD "" == "") <;>
    cases h2 : (e.title.getD "" == "") <;>
      cases h3 : (e.published.getD "" == "") <;>
        simp [h1, h2, h3]

theorem length_filterMap_eq {α β : Type} {f : α → Option β} {p : α → Bool}
    (hf : ∀ a, (f a).isSome = p a) :
    ∀ l : List α, (l.filterMap f).length = (l.filter p).length := by
  intro l
  induction l with
  | nil => rfl
  | cons a t ih =>
    rw [List.filterMap_cons, List.filter_cons]
    cases hfa : f a with
    | none =>
      have hpa := hf a
      rw [hfa] at hpa
      simp only [Option.isSome_none] at hpa
      rw [← hpa]
      simpa using ih
    | some b =>
      have hpa := hf a
      rw [hfa] at hpa
      simp only [Option.isSome_some] at hpa
      rw [← hpa]
      simpa using ih

/-- C3: the feed parser is total over the abstract parse outcome: a
parser exception (`none`) or an absent root `feed` element yields the
empty sequence, and a feed whose entry list mixes well-formed entries
(truthy `id`, `title`, `published`) with malformed ones yields exactly
one record per well-formed entry, skipping the malformed ones.  (In the
embedding `parseArxivAtomFromDoc` is a total function, mirroring the
try/catch of the source that prevents any exception from escaping.) -/

theorem C3_parseArxivAtom_total :
    parseArxivAtomFromDoc none = [] ∧
    parseArxivAtomFromDoc (some none) = [] ∧
    ∀ entries : List AtomEntry,
      parseArxivAtomFromDoc (some (some { entry := some entries })) =
        entries.filterMap parseEntry ∧
      (parseArxivAtomFromDoc (some (some { entry := some entries }))).length =
        (entries.filter wellFormedEntry).length := by
  refine ⟨rfl, rfl, fun entries => ⟨rfl, ?_⟩⟩
  exact length_filterMap_eq parseEntry_isSome entries

theorem foldl_linkStep_url (ls : List AtomLink) :
    ∀ st : String × Option String,
      (ls.foldl linkStep st).1 = (lastAltHtmlHref ls).getD st.1 := by
  induction ls with
  | nil => intro st; rfl
  | cons x t ih =>
    intro st
    cases hlast : lastAltHtmlHref t with
    | some h =>
      have hre : lastAltHtmlHref (x :: t) = some h := by
        unfold lastAltHtmlHref
        rw [hlast]
      rw [List.foldl_cons, ih (linkStep st x), hlast, hre]
      rfl
    | none =>
      have hre : lastAltHtmlHref (x :: t) =
          if x.rel == some "alternate" && x.type == some "text/html" && x.href.isSome then x.href
          else none := by
        unfold lastAltHtmlHref
        rw [hlast]
      rw [List.foldl_cons, ih (linkStep st x), hlast, hre]
      by_cases hrt : (x.rel == some "alternate" && x.type == some "text/html") = true
      · by_cases hps : x.href.isSome = true
        · have hpass : (x.rel == some "alternate" && x.type == some "text/html" && x.href.isSome)
              = true := by
            simp only [Bool.and_eq_true] at hrt ⊢
            exact ⟨⟨hrt.1, hrt.2⟩, hps⟩
          obtain ⟨h, hh⟩ := Option.isSome_iff_exists.mp hps
          rw [hpass]
          simp only [if_true]
          simp [linkStep, hrt, hh]
        · have hh : x.href = none := by
            cases hx2 : x.href with
            | none => rfl
            | some y => rw [hx2] at hps; simp at hps
          have hpass : (x.rel == some "alternate" && x.type == some "text/html" && x.href.isSome)
              = false := by
            rw [hh]
            simp
          rw [hpass]
          simp [linkStep, hrt, hh]
      · have hrt' : (x.rel == some "alternate" && x.type == some "text/html") = false := by
          simpa using hrt
        have hpass : (x.rel == some "alternate" && x.type == some "text/html" && x.href.isSome)
            = false := by
          rw [hrt']
          simp
        rw [hpass]
        simp [linkStep, hrt']

theorem foldl_linkStep_pdf (ls : List AtomLink) :
    ∀ st : String × Option String,
      (ls.foldl linkStep st).2 = (lastPdfHref ls).getD st.2 := by
  induction ls with
  | nil => intro st; rfl
  | cons x t ih =>
    intro st
    cases hlast : lastPdfHref t with
    | some h =>
      have hre : lastPdfHref (x :: t) = some h := by
        unfold lastPdfHref
        rw [hlast]
      rw [List.foldl_cons, ih (linkStep st x), hlast, hre]
      rfl
    | none =>
      have hre : lastPdfHref (x :: t) =
          if x.type == some "application/pdf" then some x.href else none := by
        unfold lastPdfHref
        rw [hlast]
      rw [List.foldl_cons, ih (linkStep st x), hlast, hre]
      by_cases hx : (x.type == some "application/pdf") = true
      · rw [hx]
        simp [linkStep, hx]
      · have hx' : (x.type == some "application/pdf") = false := by simpa using hx
        rw [hx']
        simp [linkStep, hx']

/-- C9 counterexample: on an entry with two PDF-typed links the parser
keeps the href of the LAST one, not the first: the loop of `parseEntry`
overwrites `pdfUrl` on every `application/pdf` link. -/

theorem C9_counterexample :
    ((parseEntry entryTwoPdf).map fun p => p.pdfUrl) = some (some "http://b.pdf") ∧
    ((entryTwoPdf.link.getD []).find? fun l => l.type == some "application/pdf").bind
        (fun l => l.href) = some "http://a.pdf" ∧
    ((parseEntry entryTwoPdf).map fun p => p.pdfUrl) ≠ some (some "http://a.pdf") := by
  decide

/-- C9 amended: for every feed entry that parses, the web-page url is
the href of the last alternate HTML-typed link carrying an href (the
raw identifier URI when there is none), and pdfUrl is the href of the
last link typed `application/pdf` (absent when there is no such link,
or when the last such link has no href). -/

theorem C9_link_resolution (e : AtomEntry) (paper : ArxivPaper)
    (h : parseEntry e = some paper) :
    paper.url = (lastAltHtmlHref (e.link.getD [])).getD (e.id.getD "") ∧
    paper.pdfUrl = (lastPdfHref (e.link.getD [])).getD none := by
  unfold parseEntry at h
  split at h
  · exact absurd h (by simp)
  · split at h
    · exact absurd h (by simp)
    · split at h
      · exact absurd h (by simp)
      · have hp := Option.some.inj h
        rw [← hp]
        dsimp only
        exact ⟨foldl_linkStep_url _ _, foldl_linkStep_pdf _ _⟩

theorem C9_witness :
    parseEntry linkEntryW = some linkPaperW ∧
    linkPaperW.url = (lastAltHtmlHref (linkEntryW.link.getD [])).getD (linkEntryW.id.getD "") ∧
    linkPaperW.pdfUrl = (lastPdfHref (linkEntryW.link.getD [])).getD none :=
  ⟨by decide,
   (C9_link_resolution linkEntryW linkPaperW (by decide)).1,
   (C9_link_resolution linkEntryW linkPaperW (by decide)).2⟩

theorem mem_jsSetDedup (y : String) : ∀ l : List String, y ∈ jsSetDedup l ↔ y ∈ l := by
  intro l
  induction l with
  | nil => simp [jsSetDedup]
  | cons x xs ih =>
    simp only [jsSetDedup, List.mem_cons, List.mem_filter, bne_iff_ne, ih]
    constructor
    · rintro (rfl | ⟨hm, _⟩)
      · exact Or.inl rfl
      · exact Or.inr hm
    · rintro (rfl | hm)
      · exact Or.inl rfl
      · by_cases hy : y = x
        · exact Or.inl hy
        · exact Or.inr ⟨hm, by simpa using hy⟩

/-! ### Claim C1: double save is a tag-union merge -/

/-- C1: for a canonical id not yet stored, saving with tags `T1` (with a
successful metadata fetch) and then saving again with tags `T2` leaves
exactly one stored row for that id; its tags are the set union of `T1`
and `T2`, its title, abstract and url are the ones fetched by the first
save, and the two calls report `wasAlreadySaved` false then true. -/

theorem C1_save_tag_union (store : List SavedRow) (c : String) (p : ArxivPaper)
    (T1 T2 : List String) (t1 t2 : Nat) (fetch2 : FetchOutcome)
    (hc : (normalizeArxivId c).canonical = c)
    (hnot : store.filter (fun r => r.arxiv_id == c) = []) :
    (savePaper store c T1 (.found p) t1).1.wasAlreadySaved = false ∧
    (savePaper (savePaper store c T1 (.found p) t1).2.1 c T2 fetch2 t2).1.wasAlreadySaved
      = true ∧
    ∃ row : SavedRow,
      ((savePaper (savePaper store c T1 (.found p) t1).2.1 c T2 fetch2 t2).2.1.filter
        (fun r => r.arxiv_id == c)) = [row] ∧
      row.title = p.title ∧ row.abstract = p.abstract ∧ row.url = p.url ∧
      (∀ t : String, t ∈ row.tags ↔ (t ∈ T1 ∨ t ∈ T2)) := by
  have h1 : savePaper store c T1 (.found p) t1 =
      ({ arxivId := c, title := p.title, tags := T1, savedAt := t1,
         wasAlreadySaved := false }, store ++ [insertedRow c p T1 t1], true) := by
    simp only [savePaper, hc, hnot]
  have hfilter1 : (store ++ [insertedRow c p T1 t1]).filter (fun r => r.arxiv_id == c) =
      [insertedRow c p T1 t1] := by
    rw [List.filter_append, hnot]
    simp [insertedRow]
  have h2 : savePaper (store ++ [insertedRow c p T1 t1]) c T2 fetch2 t2 =
      ({ arxivId := c, title := p.title, tags := jsSetDedup (T1 ++ T2), savedAt := t1,
         wasAlreadySaved := true },
       (store ++ [insertedRow c p T1 t1]).map (fun r =>
         if r.arxiv_id == c then { r with tags := jsSetDedup (T1 ++ T2) } else r), false) := by
    simp only [savePaper, hc, hfilter1]
    simp [insertedRow]
  have hmap : (store ++ [insertedRow c p T1 t1]).map (fun r =>
      if r.arxiv_id == c then { r with tags := jsSetDedup (T1 ++ T2) } else r) =
      store ++ [{ insertedRow c p T1 t1 with tags := jsSetDedup (T1 ++ T2) }] := by
    rw [List.map_append]
    congr 1
    · have hall := List.filter_eq_nil_iff.mp hnot
      calc store.map (fun r =>
            if r.arxiv_id == c then { r with tags := jsSetDedup (T1 ++ T2) } else r)
          = store.map id := by
            apply List.map_congr_left
            intro r hr
            have hrc : (r.arxiv_id == c) = false := by simpa using hall r hr
            simp [hrc]
        _ = store := List.map_id store
    · simp [insertedRow]
  refine ⟨by rw [h1], ?_, ?_⟩
  · rw [h1]
    dsimp only
    rw [h2]
  · rw [h1]
    dsimp only
    rw [h2]
    dsimp only
    rw [hmap]
    refine ⟨{ insertedRow c p T1 t1 with tags := jsSetDedup (T1 ++ T2) }, ?_, rfl, ?_, ?_, ?_⟩
    · rw [List.filter_append, hnot]
      simp [insertedRow]
    · simp [insertedRow]
    · simp [insertedRow]
    · intro t
      show t ∈ jsSetDedup (T1 ++ T2) ↔ _
      rw [mem_jsSetDedup]
      simp

theorem C1_witness :
    (normalizeArxivId "2301.01234").canonical = "2301.01234" ∧
    ((savePaper [] "2301.01234" ["a", "b"] (.found paperC1) 1).1.wasAlreadySaved = false ∧
     (savePaper (savePaper [] "2301.01234" ["a", "b"] (.found paperC1) 1).2.1
        "2301.01234" ["b", "c"] .missing 2).1.wasAlreadySaved = true ∧
     ∃ row : SavedRow,
       ((savePaper (savePaper [] "2301.01234" ["a", "b"] (.found paperC1) 1).2.1
          "2301.01234" ["b", "c"] .missing 2).2.1.filter
          (fun r => r.arxiv_id == "2301.01234")) = [row] ∧
       row.title = paperC1.title ∧ row.abstract = paperC1.abstract ∧
       row.url = paperC1.url ∧
       (∀ t : String, t ∈ row.tags ↔ (t ∈ ["a", "b"] ∨ t ∈ ["b", "c"]))) :=
  ⟨by decide,
   C1_save_tag_union [] "2301.01234" paperC1 ["a", "b"] ["b", "c"] 1 2 .missing
     (by decide) rfl⟩

/-- C2 counterexample: a stored row whose title is the empty string is
present in the library, yet the remove execution reports failure and
leaves the row intact — the JS guard `if (!title)` treats the falsy
empty-string title as " not found". -/

theorem C2_counterexample :
    (removeSavedPaper [emptyTitleRow] "2301.01234").1.success = false ∧
    (removeSavedPaper [emptyTitleRow] "2301.01234").1.error = some RemoveError.notFound ∧
    (removeSavedPaper [emptyTitleRow] "2301.01234").2 = [emptyTitleRow] ∧
    [emptyTitleRow].filter
      (fun r => r.arxiv_id == (normalizeArxivId "2301.01234").canonical) ≠ [] := by
  decide

/-- C2 amended: removing an id whose canonical form is not stored
returns `success = false` with a not-found error and leaves the library
unchanged; removing an id whose canonical form is stored WITH A
NON-EMPTY TITLE (after approval — the handler below is the post-approval
phase) deletes the row and returns the pre-deletion title.  (A stored
row with an empty-string title is reported not-found and kept, see the
counterexample.) -/

theorem C2_remove (store : List SavedRow) (idStr : String) :
    (store.filter (fun r => r.arxiv_id == (normalizeArxivId idStr).canonical) = [] →
      (removeSavedPaper store idStr).1.success = false ∧
      (removeSavedPaper store idStr).1.error = some RemoveError.notFound ∧
      (removeSavedPaper store idStr).2 = store) ∧
    (∀ r rest,
      store.filter (fun r2 => r2.arxiv_id == (normalizeArxivId idStr).canonical) = r :: rest →
      r.title ≠ "" →
      (removeSavedPaper store idStr).1.success = true ∧
      (removeSavedPaper store idStr).1.title = some r.title ∧
      (removeSavedPaper store idStr).2 =
        store.filter fun r2 => !(r2.arxiv_id == (normalizeArxivId idStr).canonical)) := by
  constructor
  · intro h
    simp [removeSavedPaper, h]
  · intro r rest hf hti
    have hti' : (r.title == "") = false := beq_eq_false_iff_ne.mpr hti
    simp [removeSavedPaper, hf, hti']

theorem C2_witness :
    (removeSavedPaper [rowC2] "2301.01234v2").1.success = true ∧
    (removeSavedPaper [rowC2] "2301.01234v2").1.title = some rowC2.title ∧
    (removeSavedPaper [rowC2] "2301.01234v2").2 =
      [rowC2].filter fun r2 =>
        !(r2.arxiv_id == (normalizeArxivId "2301.01234v2").canonical) :=
  (C2_remove [rowC2] "2301.01234v2").2 rowC2 [] (by decide) (by decide)

theorem filtered_eq (filterText tag : Option String) (l : List SavedRow) :
    textFilterStep filterText (tagFilterStep tag l) =
      l.filter (matchesFilters filterText tag) := by
  have htrue : ∀ m : List SavedRow, m.filter (fun _ => true) = m := List.filter_true
  unfold textFilterStep tagFilterStep matchesFilters
  cases filterText with
  | none =>
    cases tag with
    | none => simp
    | some t =>
      by_cases ht : (t == "") = true
      · simp [ht]
      · have ht' : (t == "") = false := by simpa using ht
        simp [ht']
  | some ft =>
    by_cases hft : (ft == "") = true
    · cases tag with
      | none => simp [hft]
      | some t =>
        by_cases ht : (t == "") = true
        · simp [hft, ht]
        · have ht' : (t == "") = false := by simpa using ht
          simp [hft, ht']
    · have hft' : (ft == "") = false := by simpa using hft
      cases tag with
      | none => simp [hft']
      | some t =>
        by_cases ht : (t == "") = true
        · simp [hft', ht]
        · have ht' : (t == "") = false := by simpa using ht
          simp [hft', ht', List.filter_filter]

/-- C4: for every database state and every list call with a positive
limit of at most 100, the returned papers are the first `L` elements of
the rows matching the tag and text filters (the database rows arriving
ordered by `saved_at` descending), `totalCount` is the number of
matching rows, `wasTruncated` holds iff `totalCount > L`, and the
returned papers are still ordered by `saved_at` descending. -/

theorem C4_list (allPapers : List SavedRow) (filterText tag : Option String) (L : Nat)
    (_hpos : 0 < L) (hmax : L ≤ 100)
    (hsorted : allPapers.Pairwise (fun a b => b.saved_at ≤ a.saved_at)) :
    (listSavedPapers allPapers filterText tag L).papers =
      (allPapers.filter (matchesFilters filterText tag)).take L ∧
    (listSavedPapers allPapers filterText tag L).totalCount =
      (allPapers.filter (matchesFilters filterText tag)).length ∧
    ((listSavedPapers allPapers filterText tag L).wasTruncated = true ↔
      (allPapers.filter (matchesFilters filterText tag)).length > L) ∧
    (listSavedPapers allPapers filterText tag L).papers.Pairwise
      (fun a b => b.saved_at ≤ a.saved_at) := by
  have hL : min L 100 = L := Nat.min_eq_left hmax
  have hfe := filtered_eq filterText tag allPapers
  refine ⟨?_, ?_, ?_, ?_⟩
  · simp only [listSavedPapers, hL, hfe]
  · simp only [listSavedPapers, hL, hfe]
  · simp only [listSavedPapers, hL, hfe, decide_eq_true_iff]
  · simp only [listSavedPapers, hL, hfe]
    exact hsorted.sublist ((List.take_sublist _ _).trans (List.filter_sublist _))

theorem C4_witness :
    ((listSavedPapers rowsC4 none none 5).papers =
        (rowsC4.filter (matchesFilters none none)).take 5 ∧
      (listSavedPapers rowsC4 none none 5).totalCount =
        (rowsC4.filter (matchesFilters none none)).length ∧
      ((listSavedPapers rowsC4 none none 5).wasTruncated = true ↔
        (rowsC4.filter (matchesFilters none none)).length > 5) ∧
      (listSavedPapers rowsC4 none none 5).papers.Pairwise
        (fun a b => b.saved_at ≤ a.saved_at)) ∧
    (listSavedPapers rowsC4 none none 5).wasTruncated = true ∧
    (listSavedPapers rowsC4 none none 5).totalCount = 8 ∧
    (listSavedPapers rowsC4 none none 5).papers.length = 5 :=
  ⟨C4_list rowsC4 none none 5 (by decide) (by decide) (by decide),
   by decide, by decide, by decide⟩

/-- C7 counterexample: the cache key is built from the RAW tool input,
so the raw ids `2301.01234v2` and `2301.01234`, which share a canonical
id, address DIFFERENT cache entries: with the entry for
`2301.01234:v1` present, summarising `2301.01234v2` misses the cache
while summarising `2301.01234` hits it. -/

theorem C7_counterexample :
    (summarizePaper [("2301.01234:v1", "S")] "2301.01234v2"
        (.found paperC7) (.ok "G")).1.cached = false ∧
    (summarizePaper [("2301.01234:v1", "S")] "2301.01234"
        (.found paperC7) (.ok "G")).1.cached = true ∧
    (normalizeArxivId "2301.01234v2").canonical = (normalizeArxivId "2301.01234").canonical ∧
    summaryKey "2301.01234v2" ≠ summaryKey "2301.01234" := by
  decide

/-- C7 amended: for every summarize call with raw input id `x`, the
summary cache entry is read and written under the composite key
`x ++ ":" ++ promptVersion` built from the RAW input id (not from its
canonical form): a hit returns the stored markdown unchanged and leaves
the cache alone, and a successful generation writes the new summary
under that same key. -/

theorem C7_summary_cache_key (cache : List (String × String)) (x : String)
    (fetch : FetchOutcome) (gen : GenOutcome) :
    summaryKey x = x ++ ":" ++ SUMMARY_PROMPT_VERSION ∧
    (summarizePaper cache x fetch gen).1.cached = (lookupCache cache (summaryKey x)).isSome ∧
    (∀ md, lookupCache cache (summaryKey x) = some md →
      (summarizePaper cache x fetch gen).1.summaryMd = md ∧
      (summarizePaper cache x fetch gen).2 = cache) ∧
    (∀ p text, lookupCache cache (summaryKey x) = none → fetch = .found p → gen = .ok text →
      (summarizePaper cache x fetch gen).2 = putCache cache (summaryKey x) text) := by
  refine ⟨rfl, ?_, ?_, ?_⟩
  · cases hl : lookupCache cache (summaryKey x) with
    | some md => simp [summarizePaper, hl]
    | none =>
      cases fetch with
      | network => simp [summarizePaper, hl]
      | http s => simp [summarizePaper, hl]
      | missing => simp [summarizePaper, hl]
      | found p =>
        cases gen with
        | ok text => simp [summarizePaper, hl]
        | failed => simp [summarizePaper, hl]
  · intro md hl
    exact ⟨by simp [summarizePaper, hl], by simp [summarizePaper, hl]⟩
  · intro p text hl hf hg
    subst hf
    subst hg
    simp [summarizePaper, hl]

theorem C7_witness :
    (summarizePaper [] "2301.01234v2" (.found paperC7) (.ok "G")).2 =
      putCache [] (summaryKey "2301.01234v2") "G" ∧
    (summarizePaper [] "2301.01234v2" (.found paperC7) (.ok "G")).1.cached =
      (lookupCache [] (summaryKey "2301.01234v2")).isSome :=
  ⟨(C7_summary_cache_key [] "2301.01234v2" (.found paperC7) (.ok "G")).2.2.2
      paperC7 "G" rfl rfl rfl,
   (C7_summary_cache_key [] "2301.01234v2" (.found paperC7) (.ok "G")).2.1⟩

example : encodeURIComponent "diffusion models" = "diffusion%20models" := by decide

example :
    searchQueryValue "test" (some ["cs.AI", "cs.LG"]) =
      "(test)+AND+(cat:cs.AI+OR+cat:cs.LG)" := by decide

/-- C8: evaluating the query builder at the failing input (the plain
query `diffusion models`, no categories) shows the free text is escaped
TWICE: `encodeURIComponent` produces `diffusion%20models`, and the
form serialisation of `URLSearchParams` then re-encodes the `%` sign,
so the URL carries `all%3Adiffusion%2520models` and one decoding of the
`search_query` parameter recovers `all:diffusion%20models` — not
`all:` followed by the original query text as the claim (and the
repository's own unit test, which expects
`search_query=all%3Adiffusion(\+|%20)models`) requires. -/

theorem C8_double_encoding :
    buildArxivQueryUrl "diffusion models" {} =
      "https://export.arxiv.org/api/query?search_query=all%3Adiffusion%2520models&start=0&max_results=10&sortBy=relevance&sortOrder=descending" ∧
    formDecode "all%3Adiffusion%2520models" = "all:diffusion%20models" ∧
    formDecode "all%3Adiffusion%2520models" ≠ "all:diffusion models" := by
  decide

/-! ### Claim C10: no input validation before fetch -/

/-- C10: evaluating `savePaper` at the failing input — the empty raw id,
whose canonical form is the empty string — shows the code reaches the
arXiv network fetch (third component `true`) and reports a NOT-FOUND
error rather than a typed invalid-input error (no such error kind
exists in the source); `removeSavedPaper` likewise reports not-found.
The store is left unchanged, but the claim's requirements of a typed
InvalidInput error and of no network fetch are both violated. -/

theorem C10_invalid_id_fetches :
    (normalizeArxivId "").canonical = "" ∧
    savePaper [] "" [] .missing 0 =
      ({ arxivId := "", title := "", tags := [], savedAt := 0,
         wasAlreadySaved := false, error := some SaveError.notFound }, [], true) ∧
    (removeSavedPaper [] "").1.error = some RemoveError.notFound ∧
    (removeSavedPaper [] "").2 = [] := by
  decide

end PaperScout
